import Mathlib

/-!
Shallow embedding of the `boltcycle` package (`src/boltcycle/boltcycle.go`),
a pseudo-LRU cache built from a cycle of buckets ("rings") inside a
transactional key/value store (bolt).

Modelling conventions:

* A bolt key or value (a Go `[]byte`) is a `List Nat`; Go string/byte
  comparison is the lexicographic order `bytesLt` below.
* A ring (a child bucket of the root bucket) is an association list
  `List (Bytes × Bytes)` that bolt keeps sorted by key with distinct keys;
  sortedness is the executable predicate `keysSortedB` and is carried as a
  hypothesis where a theorem needs it.
* Ring names are 8-byte big-endian unsigned integers.  Big-endian encoding
  makes byte-lexicographic order coincide with numeric order, so the root
  bucket is modelled as a list `RingDir = List (Nat × Ring)` kept in
  ascending name order, names being `Nat` values below `2^64`; `uint64`
  overflow in `nextKey` is modelled with an explicit `% 2^64`.
  `beEncode`/`beDecode` below spell out the encoding and the order
  equivalence that this identification relies on.
* A bolt cursor over a bucket iterates its sorted entries; `Seek k`
  positions at the first entry whose key is `≥ k` (`cursorSeek`), `Last`
  is `List.getLast?`, `First` is `List.head?`.
* The root bucket exists after `init` succeeds, so the
  `errUnableToFindRootBucket` branches of the Go code are dropped and a
  state is just the root's list of rings.  Error returns that remain
  (`errNoLastBucket`, `errOrderingWrong`, bolt's `ErrBucketExists` and
  `ErrKeyRequired`, and the index-out-of-range panic inside `nextKey`)
  are modelled with the `Outcome` sum.
* The promotion queue (`readMovements`, a Go channel) is modelled by the
  list of items it currently holds plus its closed flag (`Chan`); a
  blocking receive on an empty open channel has not yet returned, which
  `drainAllMovements` reports as `DrainResult.blocked`.
-/

namespace BoltCycle

/-- A byte string (Go `[]byte` / `string`). -/
abbrev Bytes := List Nat

/-- Lexicographic strict order on byte strings: Go `<` on `string`s and
`bytes.Compare < 0`. -/
def bytesLt : Bytes → Bytes → Bool
  | _, [] => false
  | [], _ :: _ => true
  | a :: as, b :: bs => if a < b then true else if b < a then false else bytesLt as bs

/-- Go `<=` on strings: `a <= b` iff `¬ (b < a)`. -/
def bytesLe (a b : Bytes) : Bool := !(bytesLt b a)

/-- Executable "strictly ascending" predicate on a list of byte strings
(the order in which a bolt cursor yields the distinct keys of a bucket). -/
def keysSortedB : List Bytes → Bool
  | [] => true
  | [_] => true
  | a :: b :: rest => bytesLt a b && keysSortedB (b :: rest)

/-- Executable "strictly ascending" predicate on ring names
(the order in which the root bucket's cursor yields its children). -/
def natsAscB : List Nat → Bool
  | [] => true
  | [_] => true
  | a :: b :: rest => decide (a < b) && natsAscB (b :: rest)

/-- Errors surfaced by the package (including bolt-level ones that the
modelled code can hit, and the slice-bounds panic inside `nextKey`). -/
inductive Err where
  /-- `errNoLastBucket` -/
  | noLastBucket
  /-- `errOrderingWrong` -/
  | orderingWrong
  /-- bolt `ErrKeyRequired`: `Put` with an empty key -/
  | keyRequired
  /-- bolt `ErrBucketExists`: `CreateBucket` with an existing name -/
  | bucketExists
  /-- the `binary.BigEndian.Uint64(nil)` index-out-of-range panic in `nextKey` -/
  | nilKeyPanic
deriving DecidableEq

/-- Result of a fallible operation (a Go `(T, error)` return). -/
inductive Outcome (α : Type) where
  | ok (val : α)
  | err (e : Err)
deriving DecidableEq

/-- A ring: one child bucket of the root, an association list from keys to
values that bolt keeps sorted by key. -/
abbrev Ring := List (Bytes × Bytes)

/-- The keys of a ring in cursor order. -/
def ringKeys (r : Ring) : List Bytes := r.map Prod.fst

/-- Bolt `Cursor.Seek k`: the first entry whose key is `≥ k`
(for a sorted bucket), or `none` when the cursor lands past the end. -/
def cursorSeek (r : Ring) (k : Bytes) : Option (Bytes × Bytes) :=
  r.find? (fun p => !(bytesLt p.1 k))

/-- The `Seek` + `bytes.Equal` pattern used throughout the package:
the value stored under exactly the key `k`, if present. -/
def seekEq (r : Ring) (k : Bytes) : Option Bytes :=
  match cursorSeek r k with
  | some (k', v) => if k' = k then some v else none
  | none => none

/-- Bolt `Bucket.Put` without the key check: insert or replace, keeping the
entries sorted by key. -/
def ringPut : Ring → Bytes → Bytes → Ring
  | [], k, v => [(k, v)]
  | (k', v') :: rest, k, v =>
    if bytesLt k k' then (k, v) :: (k', v') :: rest
    else if k' = k then (k, v) :: rest
    else (k', v') :: ringPut rest k v

/-- Bolt `Bucket.Put`: rejects the empty key (`ErrKeyRequired`), otherwise
insert-or-replace. -/
def bucketPut (r : Ring) (k v : Bytes) : Outcome Ring :=
  if k = [] then .err .keyRequired else .ok (ringPut r k v)

/-- Bolt `Cursor.Delete` after a successful `Seek` at key `k`: removes the
entry the cursor is on (the first entry with key `k`). -/
def ringDel : Ring → Bytes → Ring
  | [], _ => []
  | (k', v') :: rest, k => if k' = k then rest else (k', v') :: ringDel rest k

/-- The root bucket's children: (name, ring) pairs in ascending name order.
Names are the `Nat` readings of the 8-byte big-endian bucket names. -/
abbrev RingDir := List (Nat × Ring)

/-- The names of the rings in cursor order. -/
def ringNames (rings : RingDir) : List Nat := rings.map Prod.fst

/-- Bolt `bucket.Bucket(name)`: the child bucket with the given name. -/
def getRing (rings : RingDir) (name : Nat) : Option Ring :=
  (rings.find? (fun p => p.1 == name)).map Prod.snd

/-- Replace the ring stored under `name` (mutation of a child bucket seen
through the enclosing transaction). -/
def setRing : RingDir → Nat → Ring → RingDir
  | [], _, _ => []
  | (n, r) :: rest, name, r' =>
    if n = name then (n, r') :: rest else (n, r) :: setRing rest name r'

/-- Big-endian encoding of a number into `w` bytes
(`binary.BigEndian.PutUint64` is `beEncode 8`). -/
def beEncode : Nat → Nat → List Nat
  | 0, _ => []
  | w + 1, n => n / 256 ^ w % 256 :: beEncode w (n % 256 ^ w)

/-- Big-endian decoding of a byte string
(`binary.BigEndian.Uint64` on an 8-byte slice is `beDecode`). -/
def beDecode (b : List Nat) : Nat := b.foldl (fun acc x => acc * 256 + x) 0

/-- `nextKey` on the numeric reading of the name: `uint64` increment with
wraparound.  The Go function decodes the 8-byte name, adds 1 (mod `2^64`)
and re-encodes. -/
def nextKey (n : Nat) : Nat := (n + 1) % 2 ^ 64

/-- Delete the oldest rings: the trim loop of `CycleNodes`.  `count` is the
`countBuckets` value captured before the loop and decremented per
deletion; `minNumOldBuckets` is an `int` in Go, hence `Int` here.  The
cursor walks the rings in ascending name order, so deletion happens from
the front of the ascending list. -/
def trimOld : RingDir → Nat → Int → RingDir
  | [], _, _ => []
  | r :: rest, count, minNumOldBuckets =>
    if (count : Int) > minNumOldBuckets then trimOld rest (count - 1) minNumOldBuckets
    else r :: rest

/-- Bolt `CreateBucket` success path: insert an empty ring, keeping the
children sorted by name.  (The caller checks for an existing name.) -/
def insertRing : RingDir → Nat → RingDir
  | [], n => [(n, [])]
  | r :: rest, n => if n < r.1 then (n, []) :: r :: rest else r :: insertRing rest n

/-- `CycleNodes`: inside one write transaction, count the rings, delete the
oldest while the captured count exceeds `minNumOldBuckets`, then create a
new empty ring named after the (possibly wrapped) successor of the last
remaining name.  `cursor.Last()` on an emptied root yields `nil` and
`nextKey(nil)` panics (`nilKeyPanic`); `CreateBucket` on an existing name
fails (`bucketExists`). -/
def cycleNodes (rings : RingDir) (minNumOldBuckets : Int) : Outcome RingDir :=
  let countBuckets := rings.length
  let trimmed := trimOld rings countBuckets minNumOldBuckets
  match trimmed.getLast? with
  | none => .err .nilKeyPanic
  | some lastBucket =>
    let nextBucketName := nextKey lastBucket.1
    if (ringNames trimmed).contains nextBucketName then .err .bucketExists
    else .ok (insertRing trimmed nextBucketName)

/-- Iterated `CycleNodes` calls with no intervening writes, stopping at the
first failure. -/
def iterateCycle (rings : RingDir) (minNumOldBuckets : Int) : Nat → Outcome RingDir
  | 0 => .ok rings
  | n + 1 =>
    match cycleNodes rings minNumOldBuckets with
    | .err e => .err e
    | .ok rings' => iterateCycle rings' minNumOldBuckets n

/-- The ring directory right after `init` on an empty store: one empty ring
named `0x00000000_00000000`. -/
def freshDB : RingDir := [(0, [])]

/-- `Write`: inside one write transaction, `Put` every pair of the batch, in
order, into the ring with the largest name. -/
def putAll (r : Ring) : List (Bytes × Bytes) → Outcome Ring
  | [] => .ok r
  | p :: rest =>
    match bucketPut r p.1 p.2 with
    | .err e => .err e
    | .ok r' => putAll r' rest

/-- `Write` on the ring directory (the body of its `db.Update`);
the transaction aborts on the first `Put` error, leaving the state
unchanged. -/
def write (rings : RingDir) (towrite : List (Bytes × Bytes)) : Outcome RingDir :=
  match rings.getLast? with
  | none => .err .noLastBucket
  | some lastB =>
    match putAll lastB.2 towrite with
    | .err e => .err e
    | .ok r' => .ok (setRing rings lastB.1 r')

/-- `deleteKeys`: for each requested key (with its index), seek in the ring;
on an exact match delete at the cursor and set the key's presence flag. -/
def deleteKeysAux (r : Ring) (ret : List Bool) (idx : Nat) : List Bytes → Ring × List Bool
  | [] => (r, ret)
  | k :: ks =>
    match seekEq r k with
    | some _ => deleteKeysAux (ringDel r k) (ret.set idx true) (idx + 1) ks
    | none => deleteKeysAux r ret (idx + 1) ks

/-- `deleteKeys` over one ring, starting at index 0. -/
def deleteKeys (keys : List Bytes) (r : Ring) (ret : List Bool) : Ring × List Bool :=
  deleteKeysAux r ret 0 keys

/-- The `ForEach` over all rings inside `Delete`'s write transaction,
threading the shared presence vector. -/
def deleteFold : RingDir → List Bytes → List Bool → RingDir × List Bool
  | [], _, ret => ([], ret)
  | (n, r) :: rest, keys, ret =>
    let p := deleteKeys keys r ret
    let q := deleteFold rest keys p.2
    ((n, p.1) :: q.1, q.2)

/-- `Delete`: remove the requested keys from every ring; the returned vector
flags, per index, whether the key was found in any ring. -/
def deleteOp (rings : RingDir) (keys : List Bytes) : RingDir × List Bool :=
  deleteFold rings keys (List.replicate keys.length false)

/-- `readToLocation`: where a searched key was found.  The Go zero value has
a `nil` value slice, modelled as `value = none`. -/
structure ReadToLocation where
  /-- ring (bucket) name the key was found in -/
  bucket : Nat
  /-- the searched key -/
  key : Bytes
  /-- the copied-out value, `none` when the key was not found -/
  value : Option Bytes
  /-- true when the item must be recopied to the last ring -/
  needsCopy : Bool
deriving DecidableEq

/-- The zero `readToLocation` that `make([]readToLocation, n)` fills the
result slice with. -/
def emptyLoc : ReadToLocation := ⟨0, [], none, false⟩

/-- The `indexesToFetch` map as a list of (index, key) pairs.  (Go iterates
the map in unspecified order; entries at distinct indices are handled
independently, so list order is a sound refinement.) -/
def idxKeys (idx : Nat) : List Bytes → List (Nat × Bytes)
  | [] => []
  | k :: ks => (idx, k) :: idxKeys (idx + 1) ks

/-- One ring pass of `indexToLocation`: try every pending (index, key) on
this ring's cursor; record hits into `res` and drop them from the pending
set. -/
def searchRing (ring : Ring) (name : Nat) (needsCopy : Bool) :
    List (Nat × Bytes) → List ReadToLocation → List (Nat × Bytes) × List ReadToLocation
  | [], res => ([], res)
  | (i, k) :: ps, res =>
    match seekEq ring k with
    | some v => searchRing ring name needsCopy ps (res.set i ⟨name, k, some v, needsCopy⟩)
    | none =>
      let q := searchRing ring name needsCopy ps res
      ((i, k) :: q.1, q.2)

/-- The ring loop of `indexToLocation`: rings are visited newest to oldest
(the argument list is the ring directory reversed), the loop stops early
once every key was found, and `needsCopy` flips to true after the first
ring. -/
def locLoop : List (Nat × Ring) → List (Nat × Bytes) → Bool → List ReadToLocation →
    List ReadToLocation
  | [], _, _, res => res
  | (name, ring) :: rest, pending, needsCopy, res =>
    if pending.isEmpty then res
    else
      let q := searchRing ring name needsCopy pending res
      locLoop rest q.1 true q.2

/-- `indexToLocation`: search every key of the batch through the rings,
newest to oldest, inside one read transaction. -/
def indexToLocation (rings : RingDir) (toread : List Bytes) : List ReadToLocation :=
  locLoop rings.reverse (idxKeys 0 toread) false (List.replicate toread.length emptyLoc)

/-- `Read` on a writable instance: the per-index values, paired with the
promotion requests pushed onto `readMovements` (in slice order, exactly
the locations flagged `needsCopy`). -/
def readOp (rings : RingDir) (toread : List Bytes) :
    List (Option Bytes) × List ReadToLocation :=
  let readLocations := indexToLocation rings toread
  (readLocations.map ReadToLocation.value, readLocations.filter ReadToLocation.needsCopy)

/-- The per-key reading of the ring loop: walk the rings newest to oldest;
a hit yields (ring name, value, current promote flag), a miss flips the
flag to true for all later rings. -/
def lookupDescAux : List (Nat × Ring) → Bytes → Bool → Option (Nat × Bytes × Bool)
  | [], _, _ => none
  | (name, ring) :: rest, k, flag =>
    match seekEq ring k with
    | some v => some (name, v, flag)
    | none => lookupDescAux rest k true

/-- The spec-side locator used to state the read contract: the first ring
containing `k` when the rings are searched newest to oldest. -/
def newestRingWith (rings : RingDir) (k : Bytes) : Option (Nat × Ring) :=
  rings.reverse.find? (fun p => (seekEq p.2 k).isSome)

/-- Does any ring contain `k`? -/
def foundInSomeRing (rings : RingDir) (k : Bytes) : Bool :=
  rings.any (fun p => (seekEq p.2 k).isSome)

/-- Does the newest (largest-name) ring contain `k`? -/
def newestHas (rings : RingDir) (k : Bytes) : Bool :=
  match rings.getLast? with
  | some p => (seekEq p.2 k).isSome
  | none => false

/-- Append one read location to its source-ring group
(`bucketIDToReadLocations[r.bucket] = append(..., r)`); groups are kept in
first-appearance order (Go's map iteration order is unspecified). -/
def addToGroups : List (Nat × List ReadToLocation) → ReadToLocation →
    List (Nat × List ReadToLocation)
  | [], r => [(r.bucket, [r])]
  | (id, ls) :: rest, r =>
    if id = r.bucket then (id, ls ++ [r]) :: rest else (id, ls) :: addToGroups rest r

/-- Group a promotion batch by source ring. -/
def groupByBucket (locs : List ReadToLocation) : List (Nat × List ReadToLocation) :=
  locs.foldl addToGroups []

/-- `cleanupBucketsFunc`: seek the item's key in its source ring, delete it
there on an exact match, then `Put` the item into the last ring.  Both
buckets are read through the transaction state (`RingDir`) so that a group
whose source *is* the last ring behaves like the aliased bolt buckets. -/
def cleanupBucketsFunc (rings : RingDir) (oldName lastName : Nat) (rl : ReadToLocation) :
    Outcome (RingDir × Bool) :=
  let old := (getRing rings oldName).getD []
  let step : Bool × RingDir :=
    match seekEq old rl.key with
    | some _ => (true, setRing rings oldName (ringDel old rl.key))
    | none => (false, rings)
  let lastRing := (getRing step.2 lastName).getD []
  match bucketPut lastRing rl.key (rl.value.getD []) with
  | .err e => .err e
  | .ok last' => .ok (setRing step.2 lastName last', step.1)

/-- The per-item loop over one group inside `moveRecentReads`, accumulating
the recopied and deleted counters. -/
def processItems (rings : RingDir) (oldName lastName : Nat) :
    List ReadToLocation → Outcome (RingDir × Nat × Nat)
  | [] => .ok (rings, 0, 0)
  | rl :: rest =>
    match cleanupBucketsFunc rings oldName lastName rl with
    | .err e => .err e
    | .ok (rings', wasDeleted) =>
      match processItems rings' oldName lastName rest with
      | .err e => .err e
      | .ok (rings'', rc, dc) => .ok (rings'', rc + 1, if wasDeleted then dc + 1 else dc)

/-- The per-group loop of `moveRecentReads`: a group whose source ring no
longer exists is skipped entirely (its `if oldBucket != nil` guard also
encloses the `Put` into the last ring). -/
def processGroups (rings : RingDir) (lastName : Nat) :
    List (Nat × List ReadToLocation) → Outcome (RingDir × Nat × Nat)
  | [] => .ok (rings, 0, 0)
  | (id, locs) :: rest =>
    match getRing rings id with
    | none => processGroups rings lastName rest
    | some _ =>
      match processItems rings id lastName locs with
      | .err e => .err e
      | .ok (rings', rc, dc) =>
        match processGroups rings' lastName rest with
        | .err e => .err e
        | .ok (rings'', rc', dc') => .ok (rings'', rc + rc', dc + dc')

/-- `moveRecentReads`: one write transaction that promotes a drained batch,
group by source ring, into the last ring.  An aborted transaction leaves
the state unchanged. -/
def moveRecentReads (rings : RingDir) (readLocations : List ReadToLocation) :
    Outcome RingDir :=
  match rings.getLast? with
  | none => .err .noLastBucket
  | some lastB =>
    match processGroups rings lastB.1 (groupByBucket readLocations) with
    | .err e => .err e
    | .ok (rings', _, _) => .ok rings'

/-- The promotion queue at one instant: the items currently buffered in the
`readMovements` channel, and whether the channel has been closed. -/
structure Chan where
  /-- buffered, not yet received items in arrival order -/
  items : List ReadToLocation
  /-- has `Close` closed the channel -/
  closed : Bool
deriving DecidableEq

/-- What a `drainAllMovements` call does from a given queue state. -/
inductive DrainResult where
  /-- the first, blocking receive has not returned (queue empty and open) -/
  | blocked
  /-- the queue is closed and empty: the call returns `nil`, ending `readMovementLoop` -/
  | closedEmpty
  /-- the call returns this batch, leaving the queue in this state -/
  | batch (items : List ReadToLocation) (ch : Chan)
deriving DecidableEq

/-- The greedy, non-blocking part of `drainAllMovements`: keep pulling while
the batch is below `maxBatchSize`; an empty queue (whether closed, `!ok`,
or open, the `default` case) ends the batch. -/
def drainLoop (items : List ReadToLocation) (closed : Bool) (acc : List ReadToLocation)
    (maxBatchSize : Nat) : List ReadToLocation × Chan :=
  if acc.length < maxBatchSize then
    match items with
    | a :: rest => drainLoop rest closed (acc ++ [a]) maxBatchSize
    | [] => (acc, ⟨[], closed⟩)
  else (acc, ⟨items, closed⟩)

/-- `drainAllMovements`: block for one item (`nil` when the channel is
closed and drained), then greedily fill the batch up to `maxBatchSize`. -/
def drainAllMovements (ch : Chan) (maxBatchSize : Nat) : DrainResult :=
  match ch.items with
  | [] => if ch.closed then .closedEmpty else .blocked
  | rm :: rest =>
    let q := drainLoop rest ch.closed [rm] maxBatchSize
    .batch q.1 q.2

/-- A cursor of the `VerifyCompressed` k-way merge: the current head key
(Go keeps it as a `string`) and the keys still ahead of the cursor. -/
structure StringCursor where
  /-- the key the cursor currently points at -/
  head : Bytes
  /-- the keys after the current one, in cursor order -/
  rest : List Bytes
deriving DecidableEq

/-- All keys a cursor will still yield. -/
def cursorKeys (c : StringCursor) : List Bytes := c.head :: c.rest

/-- `createHeap`: one cursor per non-empty ring, positioned on its first
key. -/
def createHeap (rings : RingDir) : List StringCursor :=
  rings.filterMap (fun p =>
    match ringKeys p.2 with
    | [] => none
    | k :: ks => some ⟨k, ks⟩)

/-- Extract a cursor with the least head, as `container/heap` keeps at the
root under `Less i j := c[i].head < c[j].head` (ties resolved here to the
leftmost, one of the orders the heap may realise). -/
def extractMin : List StringCursor → Option (StringCursor × List StringCursor)
  | [] => none
  | c :: cs =>
    match extractMin cs with
    | none => some (c, [])
    | some (m, rest) =>
      if bytesLe c.head m.head then some (c, cs) else some (m, c :: rest)

/-- Total number of keys still ahead of the merge: the loop measure. -/
def cursSize (cs : List StringCursor) : Nat := (cs.map (fun c => c.rest.length + 1)).sum

/-- The multiset (as a list) of all keys the merge has not consumed yet. -/
def heapKeys (cs : List StringCursor) : List Bytes := (cs.map cursorKeys).flatten

/-- The `verifyHeap` loop, fuelled: pop the least head, require it strictly
above the previously popped key (the initial sentinel `top` is the empty
string, which skips the check), advance that cursor (`heap.Fix`) or
retire it (`heap.Pop`).  Every iteration consumes exactly one key, so
`cursSize` fuel is exact. -/
def verifyLoopF : Nat → Bytes → List StringCursor → Outcome Unit
  | 0, _, _ => .ok ()
  | fuel + 1, top, ch =>
    match extractMin ch with
    | none => .ok ()
    | some (c, others) =>
      if top ≠ [] ∧ bytesLe c.head top then .err .orderingWrong
      else
        match c.rest with
        | [] => verifyLoopF fuel c.head others
        | k :: ks => verifyLoopF fuel c.head (⟨k, ks⟩ :: others)

/-- `verifyHeap` on a freshly built heap. -/
def verifyHeap (ch : List StringCursor) : Outcome Unit :=
  verifyLoopF (cursSize ch) [] ch

/-- `VerifyCompressed`: inside one read transaction, merge all per-ring
cursors and check the merged key sequence is strictly increasing. -/
def verifyCompressed (rings : RingDir) : Outcome Unit :=
  verifyHeap (createHeap rings)

/-! ### Order lemmas for `bytesLt` -/

theorem bytesLt_irrefl (a : Bytes) : bytesLt a a = false := by
  induction a with
  | nil => rfl
  | cons x xs ih => simp [bytesLt, ih]

theorem bytesLt_trans : ∀ {a b c : Bytes},
    bytesLt a b = true → bytesLt b c = true → bytesLt a c = true := by
  intro a
  induction a with
  | nil =>
    intro b c hab hbc
    cases b with
    | nil => simp [bytesLt] at hab
    | cons y ys => cases c with
      | nil => simp [bytesLt] at hbc
      | cons z zs => simp [bytesLt]
  | cons x xs ih =>
    intro b c hab hbc
    cases b with
    | nil => simp [bytesLt] at hab
    | cons y ys =>
      cases c with
      | nil => simp [bytesLt] at hbc
      | cons z zs =>
        simp only [bytesLt] at hab hbc ⊢
        split_ifs at hab hbc ⊢ with h1 h2 h3 h4 h5 h6 <;>
          first
          | rfl
          | omega
          | exact ih hab hbc

theorem bytesLt_asymm {a b : Bytes} (h : bytesLt a b = true) : bytesLt b a = false := by
  by_contra hc
  have hba : bytesLt b a = true := by
    cases hb : bytesLt b a
    · exact absurd hb hc
    · rfl
  have := bytesLt_trans h hba
  rw [bytesLt_irrefl] at this
  exact absurd this (by simp)

theorem bytesLt_connex : ∀ {a b : Bytes},
    bytesLt a b = false → bytesLt b a = false → a = b := by
  intro a
  induction a with
  | nil =>
    intro b hab _
    cases b with
    | nil => rfl
    | cons y ys => simp [bytesLt] at hab
  | cons x xs ih =>
    intro b hab hba
    cases b with
    | nil => simp [bytesLt] at hba
    | cons y ys =>
      rcases Nat.lt_trichotomy x y with h | h | h
      · simp [bytesLt, h] at hab
      · subst h
        simp [bytesLt, Nat.lt_irrefl] at hab hba
        rw [ih hab hba]
      · simp [bytesLt, h, Nat.lt_asymm h] at hba

theorem bytesLe_refl (a : Bytes) : bytesLe a a = true := by
  simp [bytesLe, bytesLt_irrefl]

theorem bytesLe_of_lt {a b : Bytes} (h : bytesLt a b = true) : bytesLe a b = true := by
  simp [bytesLe, bytesLt_asymm h]

theorem bytesLe_iff {a b : Bytes} :
    bytesLe a b = true ↔ bytesLt a b = true ∨ a = b := by
  constructor
  · intro h
    simp only [bytesLe, Bool.not_eq_true'] at h
    cases hab : bytesLt a b
    · exact Or.inr (bytesLt_connex hab h)
    · exact Or.inl rfl
  · rintro (h | rfl)
    · exact bytesLe_of_lt h
    · exact bytesLe_refl a

theorem bytesLt_of_le_ne {a b : Bytes} (h : bytesLe a b = true) (hne : a ≠ b) :
    bytesLt a b = true := by
  rcases bytesLe_iff.1 h with h' | rfl
  · exact h'
  · exact absurd rfl hne

theorem bytesLe_trans {a b c : Bytes} (h1 : bytesLe a b = true) (h2 : bytesLe b c = true) :
    bytesLe a c = true := by
  rcases bytesLe_iff.1 h1 with h1' | rfl
  · rcases bytesLe_iff.1 h2 with h2' | rfl
    · exact bytesLe_of_lt (bytesLt_trans h1' h2')
    · exact bytesLe_of_lt h1'
  · exact h2

theorem bytesLt_of_lt_of_le {a b c : Bytes} (h1 : bytesLt a b = true)
    (h2 : bytesLe b c = true) : bytesLt a c = true := by
  rcases bytesLe_iff.1 h2 with h2' | rfl
  · exact bytesLt_trans h1 h2'
  · exact h1

theorem bytesLt_of_le_of_lt {a b c : Bytes} (h1 : bytesLe a b = true)
    (h2 : bytesLt b c = true) : bytesLt a c = true := by
  rcases bytesLe_iff.1 h1 with h1' | rfl
  · exact bytesLt_trans h1' h2
  · exact h2

theorem not_bytesLt_of_le {a b : Bytes} (h : bytesLe a b = true) : bytesLt b a = false := by
  simpa [bytesLe] using h

/-! ### Sortedness bridges -/

/-- The relation a sorted bucket's key list satisfies pairwise. -/
theorem keysSortedB_iff_pairwise : ∀ {l : List Bytes},
    keysSortedB l = true ↔ l.Pairwise (fun a b => bytesLt a b = true) := by
  have chain : ∀ {l : List Bytes},
      keysSortedB l = true ↔ List.Chain' (fun a b => bytesLt a b = true) l := by
    intro l
    induction l with
    | nil => simp [keysSortedB]
    | cons a rest ih =>
      cases rest with
      | nil => simp [keysSortedB]
      | cons b rest' =>
        simp only [keysSortedB, Bool.and_eq_true, List.chain'_cons, ih]
  intro l
  rw [chain]
  haveI : IsTrans Bytes (fun a b => bytesLt a b = true) :=
    ⟨fun _ _ _ h1 h2 => bytesLt_trans h1 h2⟩
  exact List.chain'_iff_pairwise

theorem natsAscB_iff_pairwise : ∀ {l : List Nat},
    natsAscB l = true ↔ l.Pairwise (· < ·) := by
  have chain : ∀ {l : List Nat},
      natsAscB l = true ↔ List.Chain' (· < ·) l := by
    intro l
    induction l with
    | nil => simp [natsAscB]
    | cons a rest ih =>
      cases rest with
      | nil => simp [natsAscB]
      | cons b rest' =>
        simp only [natsAscB, Bool.and_eq_true, List.chain'_cons, ih, decide_eq_true_eq]
  intro l
  rw [chain]
  exact List.chain'_iff_pairwise

/-- Two options are equal when they agree on every `some`. -/
theorem opt_ext {β : Type} {o1 o2 : Option β} (h : ∀ x, o1 = some x ↔ o2 = some x) :
    o1 = o2 := by
  cases o1 with
  | none =>
    cases o2 with
    | none => rfl
    | some b => exact (h b).2 rfl
  | some a => exact ((h a).1 rfl).symm

/-! ### `seekEq` on sorted rings -/

/-- On a sorted bucket, `Seek` + `bytes.Equal` is exactly association-list
lookup: it returns `some v` iff the pair `(k, v)` is stored. -/
theorem seekEq_some_iff : ∀ {r : Ring} {k v : Bytes},
    keysSortedB (ringKeys r) = true → (seekEq r k = some v ↔ (k, v) ∈ r) := by
  intro r
  induction r with
  | nil => intro k v _; simp [seekEq, cursorSeek]
  | cons p rest ih =>
    intro k v hs
    obtain ⟨k', v'⟩ := p
    have hpw := keysSortedB_iff_pairwise.1 hs
    rw [ringKeys, List.map_cons, List.pairwise_cons] at hpw
    obtain ⟨hhead, htail⟩ := hpw
    have hstail : keysSortedB (ringKeys rest) = true := keysSortedB_iff_pairwise.2 htail
    have hmem_lt : ∀ b : Bytes, (k, b) ∈ rest → bytesLt k' k = true := by
      intro b hb
      exact hhead k (List.mem_map.2 ⟨(k, b), hb, rfl⟩)
    by_cases hlt : bytesLt k' k = true
    · have hne : k' ≠ k := by
        intro he
        rw [he, bytesLt_irrefl] at hlt
        exact absurd hlt (by decide)
      have hskip : seekEq ((k', v') :: rest) k = seekEq rest k := by
        unfold seekEq cursorSeek
        rw [List.find?_cons_of_neg _ (by simp [hlt])]
      rw [hskip, ih hstail]
      constructor
      · exact fun h => List.mem_cons.2 (Or.inr h)
      · intro hmem
        rcases List.mem_cons.1 hmem with he | hm
        · injection he with h1 h2
          exact absurd h1.symm hne
        · exact hm
    · have hfind : seekEq ((k', v') :: rest) k =
          if k' = k then some v' else none := by
        unfold seekEq cursorSeek
        rw [List.find?_cons_of_pos _ (by simp [hlt])]
      by_cases heq : k' = k
      · rw [hfind, if_pos heq]
        constructor
        · intro h
          have hv : v' = v := Option.some.inj h
          subst hv
          rw [← heq]
          exact List.mem_cons_self _ _
        · intro hmem
          rcases List.mem_cons.1 hmem with he | hm
          · injection he with h1 h2
            rw [h2]
          · exact absurd (hmem_lt v hm) (by rw [heq, bytesLt_irrefl]; simp)
      · rw [hfind, if_neg heq]
        constructor
        · intro h; exact absurd h (by simp)
        · intro hmem
          rcases List.mem_cons.1 hmem with he | hm
          · injection he with h1 h2
            exact absurd h1.symm heq
          · exact absurd (hmem_lt v hm) (by simp [hlt])

/-- On a sorted bucket, the seek-equal pattern succeeds iff the key is
present. -/
theorem seekEq_isSome_iff {r : Ring} {k : Bytes}
    (hs : keysSortedB (ringKeys r) = true) :
    (seekEq r k).isSome = true ↔ k ∈ ringKeys r := by
  rw [Option.isSome_iff_exists]
  constructor
  · rintro ⟨v, hv⟩
    exact List.mem_map.2 ⟨(k, v), (seekEq_some_iff hs).1 hv, rfl⟩
  · intro hk
    obtain ⟨p, hp, hk'⟩ := List.mem_map.1 hk
    exact ⟨p.2, (seekEq_some_iff hs).2 (by rwa [show ((k : Bytes), p.2) = p from by
      rw [← hk']] )⟩

/-- On a sorted bucket, the seek-equal pattern fails iff the key is absent. -/
theorem seekEq_none_iff {r : Ring} {k : Bytes}
    (hs : keysSortedB (ringKeys r) = true) :
    seekEq r k = none ↔ k ∉ ringKeys r := by
  rw [← seekEq_isSome_iff hs]
  cases seekEq r k <;> simp

/-! ### `ringPut` on sorted rings -/

theorem ringKeys_ringPut_subset : ∀ {r : Ring} {k v x : Bytes},
    x ∈ ringKeys (ringPut r k v) → x ∈ ringKeys r ∨ x = k := by
  intro r
  induction r with
  | nil =>
    intro k v x hx
    simp only [ringPut, ringKeys, List.map_cons, List.map_nil, List.mem_cons,
      List.not_mem_nil, or_false] at hx
    exact Or.inr hx
  | cons q rest ih =>
    intro k v x hx
    obtain ⟨k', v'⟩ := q
    by_cases h1 : bytesLt k k' = true
    · rw [ringPut, if_pos h1] at hx
      simp only [ringKeys, List.map_cons, List.mem_cons] at hx ⊢
      tauto
    · by_cases h2 : k' = k
      · rw [ringPut, if_neg h1, if_pos h2] at hx
        simp only [ringKeys, List.map_cons, List.mem_cons] at hx ⊢
        tauto
      · rw [ringPut, if_neg h1, if_neg h2] at hx
        simp only [ringKeys, List.map_cons, List.mem_cons] at hx ⊢
        rcases hx with h | h
        · exact Or.inl (Or.inl h)
        · rcases ih h with h' | h'
          · exact Or.inl (Or.inr h')
          · exact Or.inr h'

/-- `Put` keeps a sorted bucket sorted. -/
theorem ringPut_sorted : ∀ {r : Ring} {k v : Bytes},
    keysSortedB (ringKeys r) = true → keysSortedB (ringKeys (ringPut r k v)) = true := by
  intro r
  induction r with
  | nil => intro k v _; simp [ringPut, ringKeys, keysSortedB]
  | cons p rest ih =>
    intro k v hs
    obtain ⟨k', v'⟩ := p
    have hpw := keysSortedB_iff_pairwise.1 hs
    rw [ringKeys, List.map_cons, List.pairwise_cons] at hpw
    obtain ⟨hhead, htail⟩ := hpw
    have hstail : keysSortedB (ringKeys rest) = true := keysSortedB_iff_pairwise.2 htail
    by_cases h1 : bytesLt k k' = true
    · rw [ringPut, if_pos h1]
      apply keysSortedB_iff_pairwise.2
      simp only [ringKeys, List.map_cons]
      refine List.pairwise_cons.2 ⟨?_, List.pairwise_cons.2 ⟨hhead, htail⟩⟩
      intro x hx
      rcases List.mem_cons.1 hx with rfl | h
      · exact h1
      · exact bytesLt_trans h1 (hhead x h)
    · by_cases h2 : k' = k
      · rw [ringPut, if_neg h1, if_pos h2]
        apply keysSortedB_iff_pairwise.2
        simp only [ringKeys, List.map_cons]
        exact List.pairwise_cons.2 ⟨fun x hx => h2 ▸ hhead x hx, htail⟩
      · rw [ringPut, if_neg h1, if_neg h2]
        apply keysSortedB_iff_pairwise.2
        simp only [ringKeys, List.map_cons]
        refine List.pairwise_cons.2
          ⟨?_, by simpa [ringKeys] using keysSortedB_iff_pairwise.1 (ih hstail)⟩
        intro x hx
        rcases ringKeys_ringPut_subset (show x ∈ ringKeys (ringPut rest k v) from hx)
          with h | h
        · exact hhead x h
        · subst h
          cases hx' : bytesLt k' x
          · cases hx'' : bytesLt x k'
            · exact absurd (@bytesLt_connex k' x hx' hx'') h2
            · exact absurd hx'' (by simp [h1])
          · rfl

/-- Membership in a sorted bucket after `Put`: the new pair replaces any
pair at the same key and leaves the rest alone. -/
theorem mem_ringPut_iff : ∀ {r : Ring} {k v a b : Bytes},
    keysSortedB (ringKeys r) = true →
    ((a, b) ∈ ringPut r k v ↔ (a = k ∧ b = v) ∨ ((a, b) ∈ r ∧ a ≠ k)) := by
  intro r
  induction r with
  | nil =>
    intro k v a b _
    simp only [ringPut, List.mem_cons, List.not_mem_nil, Prod.mk.injEq, or_false]
    constructor
    · rintro ⟨rfl, rfl⟩; exact Or.inl ⟨rfl, rfl⟩
    · rintro (⟨rfl, rfl⟩ | ⟨h, _⟩)
      · exact ⟨rfl, rfl⟩
      · exact absurd h (by simp)
  | cons p rest ih =>
    intro k v a b hs
    obtain ⟨k', v'⟩ := p
    have hpw := keysSortedB_iff_pairwise.1 hs
    rw [ringKeys, List.map_cons, List.pairwise_cons] at hpw
    obtain ⟨hhead, htail⟩ := hpw
    have hstail : keysSortedB (ringKeys rest) = true := keysSortedB_iff_pairwise.2 htail
    have hmem_lt : ∀ x y : Bytes, (x, y) ∈ rest → bytesLt k' x = true := by
      intro x y hxy
      exact hhead x (List.mem_map.2 ⟨(x, y), hxy, rfl⟩)
    by_cases h1 : bytesLt k k' = true
    · rw [ringPut, if_pos h1]
      simp only [List.mem_cons, Prod.mk.injEq]
      constructor
      · rintro (⟨rfl, rfl⟩ | h | h)
        · exact Or.inl ⟨rfl, rfl⟩
        · refine Or.inr ⟨Or.inl h, ?_⟩
          obtain ⟨rfl, rfl⟩ := h
          intro he
          subst he
          rw [bytesLt_irrefl] at h1
          exact absurd h1 (by decide)
        · refine Or.inr ⟨Or.inr h, ?_⟩
          intro he
          subst he
          have := bytesLt_trans h1 (hmem_lt a b h)
          rw [bytesLt_irrefl] at this
          exact absurd this (by decide)
      · rintro (⟨rfl, rfl⟩ | ⟨h | h, hne⟩)
        · exact Or.inl ⟨rfl, rfl⟩
        · exact Or.inr (Or.inl h)
        · exact Or.inr (Or.inr h)
    · by_cases h2 : k' = k
      · subst h2
        rw [ringPut, if_neg h1, if_pos rfl]
        simp only [List.mem_cons, Prod.mk.injEq]
        constructor
        · rintro (⟨rfl, rfl⟩ | h)
          · exact Or.inl ⟨rfl, rfl⟩
          · refine Or.inr ⟨Or.inr h, ?_⟩
            intro he
            subst he
            have := hmem_lt a b h
            rw [bytesLt_irrefl] at this
            exact absurd this (by decide)
        · rintro (⟨rfl, rfl⟩ | ⟨⟨rfl, rfl⟩ | h, hne⟩)
          · exact Or.inl ⟨rfl, rfl⟩
          · exact absurd rfl hne
          · exact Or.inr h
      · rw [ringPut, if_neg h1, if_neg h2]
        simp only [List.mem_cons, Prod.mk.injEq]
        rw [ih hstail]
        constructor
        · rintro (⟨rfl, rfl⟩ | ⟨rfl, rfl⟩ | ⟨h, hne⟩)
          · exact Or.inr ⟨Or.inl ⟨rfl, rfl⟩, fun he => h2 (he ▸ rfl)⟩
          · exact Or.inl ⟨rfl, rfl⟩
          · exact Or.inr ⟨Or.inr h, hne⟩
        · rintro (⟨rfl, rfl⟩ | ⟨⟨rfl, rfl⟩ | h, hne⟩)
          · exact Or.inr (Or.inl ⟨rfl, rfl⟩)
          · exact Or.inl ⟨rfl, rfl⟩
          · exact Or.inr (Or.inr ⟨h, hne⟩)

/-- Reading back through the program's own seek-equal pattern after a `Put`
on a sorted bucket: the written key now maps to the written value and every
other key is unchanged. -/
theorem seekEq_ringPut {r : Ring} {k v k1 : Bytes}
    (hs : keysSortedB (ringKeys r) = true) :
    seekEq (ringPut r k v) k1 = if k1 = k then some v else seekEq r k1 := by
  apply opt_ext
  intro x
  rw [seekEq_some_iff (ringPut_sorted hs), mem_ringPut_iff hs]
  by_cases he : k1 = k
  · subst he
    rw [if_pos rfl]
    constructor
    · rintro (⟨_, rfl⟩ | ⟨_, hne⟩)
      · rfl
      · exact absurd rfl hne
    · rintro h
      exact Or.inl ⟨rfl, by simpa using h.symm⟩
  · rw [if_neg he, seekEq_some_iff hs]
    constructor
    · rintro (⟨he', _⟩ | ⟨h, _⟩)
      · exact absurd he' he
      · exact h
    · intro h
      exact Or.inr ⟨h, he⟩

/-! ### `ringDel` on sorted rings -/

theorem ringDel_sublist : ∀ (r : Ring) (k : Bytes), (ringDel r k).Sublist r := by
  intro r k
  induction r with
  | nil => simp [ringDel]
  | cons p rest ih =>
    obtain ⟨k', v'⟩ := p
    by_cases h : k' = k
    · rw [ringDel, if_pos h]
      exact List.sublist_cons_self _ _
    · rw [ringDel, if_neg h]
      exact ih.cons₂ _

/-- `Cursor.Delete` keeps a sorted bucket sorted. -/
theorem ringDel_sorted {r : Ring} {k : Bytes}
    (hs : keysSortedB (ringKeys r) = true) :
    keysSortedB (ringKeys (ringDel r k)) = true := by
  apply keysSortedB_iff_pairwise.2
  exact (keysSortedB_iff_pairwise.1 hs).sublist ((ringDel_sublist r k).map Prod.fst)

/-- Membership after deleting key `k` from a sorted bucket. -/
theorem mem_ringDel_iff : ∀ {r : Ring} {k a b : Bytes},
    keysSortedB (ringKeys r) = true →
    ((a, b) ∈ ringDel r k ↔ (a, b) ∈ r ∧ a ≠ k) := by
  intro r
  induction r with
  | nil => intro k a b _; simp [ringDel]
  | cons p rest ih =>
    intro k a b hs
    obtain ⟨k', v'⟩ := p
    have hpw := keysSortedB_iff_pairwise.1 hs
    rw [ringKeys, List.map_cons, List.pairwise_cons] at hpw
    obtain ⟨hhead, htail⟩ := hpw
    have hstail : keysSortedB (ringKeys rest) = true := keysSortedB_iff_pairwise.2 htail
    have hmem_lt : ∀ x y : Bytes, (x, y) ∈ rest → bytesLt k' x = true := by
      intro x y hxy
      exact hhead x (List.mem_map.2 ⟨(x, y), hxy, rfl⟩)
    by_cases h : k' = k
    · subst h
      rw [ringDel, if_pos rfl]
      simp only [List.mem_cons, Prod.mk.injEq]
      constructor
      · intro hm
        refine ⟨Or.inr hm, ?_⟩
        intro he
        subst he
        have := hmem_lt a b hm
        rw [bytesLt_irrefl] at this
        exact absurd this (by decide)
      · rintro ⟨⟨rfl, rfl⟩ | hm, hne⟩
        · exact absurd rfl hne
        · exact hm
    · rw [ringDel, if_neg h]
      simp only [List.mem_cons, Prod.mk.injEq]
      rw [ih hstail]
      constructor
      · rintro (⟨rfl, rfl⟩ | ⟨hm, hne⟩)
        · exact ⟨Or.inl ⟨rfl, rfl⟩, fun he => h (he ▸ rfl)⟩
        · exact ⟨Or.inr hm, hne⟩
      · rintro ⟨⟨rfl, rfl⟩ | hm, hne⟩
        · exact Or.inl ⟨rfl, rfl⟩
        · exact Or.inr ⟨hm, hne⟩

/-- Key membership after deleting key `k` from a sorted bucket. -/
theorem ringKeys_ringDel_iff {r : Ring} {k k1 : Bytes}
    (hs : keysSortedB (ringKeys r) = true) :
    k1 ∈ ringKeys (ringDel r k) ↔ k1 ∈ ringKeys r ∧ k1 ≠ k := by
  constructor
  · intro h
    obtain ⟨p, hp, rfl⟩ := List.mem_map.1 h
    have := (mem_ringDel_iff hs).1 (by simpa using hp)
    exact ⟨List.mem_map.2 ⟨p, this.1, rfl⟩, this.2⟩
  · rintro ⟨h, hne⟩
    obtain ⟨p, hp, rfl⟩ := List.mem_map.1 h
    exact List.mem_map.2 ⟨p, (mem_ringDel_iff hs).2 ⟨by simpa using hp, hne⟩, rfl⟩

/-! ### The k-way merge of `VerifyCompressed` -/

theorem cursSize_nil : cursSize [] = 0 := rfl

theorem cursSize_cons (c : StringCursor) (cs : List StringCursor) :
    cursSize (c :: cs) = c.rest.length + 1 + cursSize cs := by
  simp [cursSize]

theorem cursSize_eq_zero : ∀ {ch : List StringCursor}, cursSize ch = 0 → ch = [] := by
  intro ch h
  cases ch with
  | nil => rfl
  | cons c cs => rw [cursSize_cons] at h; omega

theorem heapKeys_nil : heapKeys [] = [] := rfl

theorem heapKeys_cons (c : StringCursor) (cs : List StringCursor) :
    heapKeys (c :: cs) = cursorKeys c ++ heapKeys cs := by
  simp [heapKeys]

theorem mem_heapKeys {k : Bytes} {ch : List StringCursor} :
    k ∈ heapKeys ch ↔ ∃ c ∈ ch, k ∈ cursorKeys c := by
  simp [heapKeys, List.mem_flatten]

theorem cursSize_perm {ch ch' : List StringCursor} (h : ch.Perm ch') :
    cursSize ch = cursSize ch' := by
  unfold cursSize
  exact (h.map (fun c => c.rest.length + 1)).sum_eq

theorem heapKeys_perm {ch ch' : List StringCursor} (h : ch.Perm ch') :
    (heapKeys ch).Perm (heapKeys ch') := (h.map cursorKeys).flatten

theorem extractMin_eq_none : ∀ {ch : List StringCursor},
    extractMin ch = none ↔ ch = [] := by
  intro ch
  cases ch with
  | nil => simp [extractMin]
  | cons c cs =>
    simp only [extractMin]
    cases h : extractMin cs with
    | none => simp
    | some p =>
      obtain ⟨m, rest⟩ := p
      by_cases hle : bytesLe c.head m.head = true <;> simp [hle]

theorem extractMin_perm : ∀ {ch : List StringCursor} {c : StringCursor}
    {others : List StringCursor},
    extractMin ch = some (c, others) → (c :: others).Perm ch := by
  intro ch
  induction ch with
  | nil => intro c others h; simp [extractMin] at h
  | cons a cs ih =>
    intro c others h
    simp only [extractMin] at h
    cases hcs : extractMin cs with
    | none =>
      rw [hcs] at h
      obtain rfl := extractMin_eq_none.1 hcs
      replace h : some (a, ([] : List StringCursor)) = some (c, others) := h
      injection h with h2
      injection h2 with h3 h4
      subst h3
      subst h4
      exact List.Perm.refl _
    | some p =>
      obtain ⟨m, rest⟩ := p
      rw [hcs] at h
      replace h : (if bytesLe a.head m.head = true then some (a, cs)
          else some (m, a :: rest)) = some (c, others) := h
      by_cases hle : bytesLe a.head m.head = true
      · rw [if_pos hle] at h
        injection h with h2
        injection h2 with h3 h4
        subst h3
        subst h4
        exact List.Perm.refl _
      · rw [if_neg hle] at h
        injection h with h2
        injection h2 with h3 h4
        subst h3
        subst h4
        exact ((List.Perm.swap a m rest).trans ((ih hcs).cons a))

theorem extractMin_min : ∀ {ch : List StringCursor} {c : StringCursor}
    {others : List StringCursor},
    extractMin ch = some (c, others) → ∀ c' ∈ ch, bytesLe c.head c'.head = true := by
  intro ch
  induction ch with
  | nil => intro c others h; simp [extractMin] at h
  | cons a cs ih =>
    intro c others h c' hc'
    simp only [extractMin] at h
    cases hcs : extractMin cs with
    | none =>
      rw [hcs] at h
      obtain rfl := extractMin_eq_none.1 hcs
      replace h : some (a, ([] : List StringCursor)) = some (c, others) := h
      injection h with h2
      injection h2 with h3 h4
      subst h3
      rcases List.mem_cons.1 hc' with rfl | hmem
      · exact bytesLe_refl _
      · exact absurd hmem (by simp)
    | some p =>
      obtain ⟨m, rest⟩ := p
      rw [hcs] at h
      replace h : (if bytesLe a.head m.head = true then some (a, cs)
          else some (m, a :: rest)) = some (c, others) := h
      by_cases hle : bytesLe a.head m.head = true
      · rw [if_pos hle] at h
        injection h with h2
        injection h2 with h3 h4
        subst h3
        rcases List.mem_cons.1 hc' with rfl | hmem
        · exact bytesLe_refl _
        · exact bytesLe_trans hle (ih hcs c' hmem)
      · rw [if_neg hle] at h
        injection h with h2
        injection h2 with h3 h4
        subst h3
        have hlt : bytesLt m.head a.head = true := by
          simp only [bytesLe, Bool.not_eq_true'] at hle
          simpa using hle
        rcases List.mem_cons.1 hc' with rfl | hmem
        · exact bytesLe_of_lt hlt
        · exact ih hcs c' hmem

/-- On a sorted cursor, the head is a lower bound of every key still to
come. -/
theorem cursor_head_le {c : StringCursor}
    (hs : keysSortedB (cursorKeys c) = true) :
    ∀ k ∈ cursorKeys c, bytesLe c.head k = true := by
  intro k hk
  have hpw := keysSortedB_iff_pairwise.1 hs
  rw [cursorKeys, List.pairwise_cons] at hpw
  rcases List.mem_cons.1 hk with rfl | hmem
  · exact bytesLe_refl _
  · exact bytesLe_of_lt (hpw.1 k hmem)

/-- One step of the merge check, as a fact about the remaining key
multiset: popping the minimum `h` turns strict-dominance-by-`top` of
`h :: M` into strict-dominance-by-`h` of `M`, and `Nodup` loses exactly
`h ∉ M`. -/
theorem verify_step_iff {top h : Bytes} {M : List Bytes}
    (hmin : ∀ k ∈ M, bytesLe h k = true)
    (hne : h ≠ [])
    (htop : top = [] ∨ bytesLt top h = true) :
    ((h :: M).Nodup ∧ (top ≠ [] → ∀ k ∈ h :: M, bytesLt top k = true)) ↔
      (M.Nodup ∧ (h ≠ [] → ∀ k ∈ M, bytesLt h k = true)) := by
  constructor
  · rintro ⟨hnd, _⟩
    rw [List.nodup_cons] at hnd
    refine ⟨hnd.2, fun _ k hk => ?_⟩
    refine bytesLt_of_le_ne (hmin k hk) ?_
    intro he
    exact hnd.1 (he ▸ hk)
  · rintro ⟨hnd, himp⟩
    have hdom := himp hne
    constructor
    · rw [List.nodup_cons]
      refine ⟨?_, hnd⟩
      intro hmem
      have := hdom h hmem
      rw [bytesLt_irrefl] at this
      exact absurd this (by decide)
    · intro htopne k hk
      have htoph : bytesLt top h = true := by
        rcases htop with rfl | h'
        · exact absurd rfl htopne
        · exact h'
      rcases List.mem_cons.1 hk with rfl | hmem
      · exact htoph
      · exact bytesLt_trans htoph (hdom k hmem)

theorem keysSortedB_tail {a : Bytes} {l : List Bytes} (h : keysSortedB (a :: l) = true) :
    keysSortedB l = true :=
  keysSortedB_iff_pairwise.2 (List.Pairwise.of_cons (keysSortedB_iff_pairwise.1 h))

/-- The merge invariant is stable under permutation of the remaining key
multiset. -/
theorem verify_rhs_perm {top : Bytes} {M M' : List Bytes} (h : M.Perm M') :
    (M.Nodup ∧ (top ≠ [] → ∀ k ∈ M, bytesLt top k = true)) ↔
      (M'.Nodup ∧ (top ≠ [] → ∀ k ∈ M', bytesLt top k = true)) := by
  rw [h.nodup_iff]
  constructor
  · rintro ⟨hnd, himp⟩
    exact ⟨hnd, fun ht k hk => himp ht k (h.mem_iff.2 hk)⟩
  · rintro ⟨hnd, himp⟩
    exact ⟨hnd, fun ht k hk => himp ht k (h.mem_iff.1 hk)⟩

/-- Full characterisation of the `verifyHeap` loop: with enough fuel, over
sorted cursors carrying non-empty keys, the loop accepts exactly when the
remaining keys are pairwise distinct and all strictly above the last
popped key (no check while `top` is still the empty-string sentinel). -/
theorem verifyLoopF_iff : ∀ (fuel : Nat) (top : Bytes) (ch : List StringCursor),
    cursSize ch ≤ fuel →
    (∀ c ∈ ch, keysSortedB (cursorKeys c) = true) →
    (∀ c ∈ ch, ∀ k ∈ cursorKeys c, k ≠ []) →
    (verifyLoopF fuel top ch = .ok () ↔
      ((heapKeys ch).Nodup ∧ (top ≠ [] → ∀ k ∈ heapKeys ch, bytesLt top k = true))) := by
  intro fuel
  induction fuel with
  | zero =>
    intro top ch hfuel _ _
    obtain rfl : ch = [] := cursSize_eq_zero (Nat.le_zero.1 hfuel)
    simp [verifyLoopF, heapKeys_nil]
  | succ fuel ih =>
    intro top ch hfuel hs hne
    cases hext : extractMin ch with
    | none =>
      obtain rfl := extractMin_eq_none.1 hext
      simp [verifyLoopF, extractMin, heapKeys_nil]
    | some p =>
      obtain ⟨c, others⟩ := p
      have hperm := extractMin_perm hext
      have hmin := extractMin_min hext
      have hcmem : c ∈ ch := hperm.subset (List.mem_cons_self _ _)
      have hsc : keysSortedB (cursorKeys c) = true := hs c hcmem
      have hnec : c.head ≠ [] := hne c hcmem c.head (List.mem_cons_self _ _)
      have hminM : ∀ k ∈ heapKeys ch, bytesLe c.head k = true := by
        intro k hk
        obtain ⟨c', hc', hk'⟩ := mem_heapKeys.1 hk
        exact bytesLe_trans (hmin c' hc') (cursor_head_le (hs c' hc') k hk')
      have hrw : verifyLoopF (fuel + 1) top ch =
          (if top ≠ [] ∧ bytesLe c.head top = true then .err .orderingWrong
           else match c.rest with
             | [] => verifyLoopF fuel c.head others
             | k :: ks => verifyLoopF fuel c.head (⟨k, ks⟩ :: others)) := by
        simp only [verifyLoopF, hext]
      rw [hrw]
      by_cases hcond : top ≠ [] ∧ bytesLe c.head top = true
      · rw [if_pos hcond]
        constructor
        · intro hcontr
          exact Outcome.noConfusion hcontr
        · rintro ⟨hnd, himp⟩
          have hmemhead : c.head ∈ heapKeys ch :=
            mem_heapKeys.2 ⟨c, hcmem, List.mem_cons_self _ _⟩
          have h1 := himp hcond.1 c.head hmemhead
          have h2 := not_bytesLt_of_le hcond.2
          rw [h1] at h2
          exact Bool.noConfusion h2
      · rw [if_neg hcond]
        have htop : top = [] ∨ bytesLt top c.head = true := by
          by_cases ht : top = []
          · exact Or.inl ht
          · right
            have hnotle : ¬ bytesLe c.head top = true := fun hc => hcond ⟨ht, hc⟩
            have hfalse : bytesLe c.head top = false := by
              cases hb : bytesLe c.head top
              · rfl
              · exact absurd hb hnotle
            simpa [bytesLe] using hfalse
        cases hrest : c.rest with
        | nil =>
          have hfuel' : cursSize others ≤ fuel := by
            have hsz := cursSize_perm hperm
            rw [cursSize_cons, hrest] at hsz
            simp only [List.length_nil] at hsz
            omega
          have hs' : ∀ c' ∈ others, keysSortedB (cursorKeys c') = true :=
            fun c' hc' => hs c' (hperm.subset (List.mem_cons_of_mem _ hc'))
          have hne' : ∀ c' ∈ others, ∀ k ∈ cursorKeys c', k ≠ [] :=
            fun c' hc' => hne c' (hperm.subset (List.mem_cons_of_mem _ hc'))
          have hpk : (heapKeys ch).Perm (c.head :: heapKeys others) := by
            have hp := heapKeys_perm hperm
            rw [heapKeys_cons, cursorKeys, hrest] at hp
            exact hp.symm
          have hminM' : ∀ k ∈ heapKeys others, bytesLe c.head k = true := by
            intro k hk
            exact hminM k (hpk.mem_iff.2 (List.mem_cons_of_mem _ hk))
          rw [ih c.head others hfuel' hs' hne', verify_rhs_perm hpk]
          exact Iff.symm (verify_step_iff hminM' hnec htop)
        | cons k ks =>
          have hfuel' : cursSize (⟨k, ks⟩ :: others) ≤ fuel := by
            have hsz := cursSize_perm hperm
            rw [cursSize_cons, hrest] at hsz
            rw [cursSize_cons]
            simp only [List.length_cons] at hsz ⊢
            omega
          have hckeys : cursorKeys c = c.head :: k :: ks := by
            rw [cursorKeys, hrest]
          have hs' : ∀ c' ∈ (⟨k, ks⟩ :: others), keysSortedB (cursorKeys c') = true := by
            intro c' hc'
            rcases List.mem_cons.1 hc' with rfl | hmem
            · have := hsc
              rw [hckeys] at this
              exact keysSortedB_tail this
            · exact hs c' (hperm.subset (List.mem_cons_of_mem _ hmem))
          have hne' : ∀ c' ∈ (⟨k, ks⟩ :: others), ∀ x ∈ cursorKeys c', x ≠ [] := by
            intro c' hc' x hx
            rcases List.mem_cons.1 hc' with rfl | hmem
            · refine hne c hcmem x ?_
              rw [hckeys]
              exact List.mem_cons_of_mem _ hx
            · exact hne c' (hperm.subset (List.mem_cons_of_mem _ hmem)) x hx
          have hpk : (heapKeys ch).Perm (c.head :: heapKeys (⟨k, ks⟩ :: others)) := by
            have hp := heapKeys_perm hperm
            rw [heapKeys_cons, hckeys] at hp
            rw [heapKeys_cons]
            exact hp.symm
          have hminM' : ∀ x ∈ heapKeys (⟨k, ks⟩ :: others), bytesLe c.head x = true := by
            intro x hx
            exact hminM x (hpk.mem_iff.2 (List.mem_cons_of_mem _ hx))
          rw [ih c.head (⟨k, ks⟩ :: others) hfuel' hs' hne', verify_rhs_perm hpk]
          exact Iff.symm (verify_step_iff hminM' hnec htop)

/-- `verifyHeap` accepts exactly the heaps whose key multiset has no
duplicate (sorted cursors, non-empty keys). -/
theorem verifyHeap_iff {ch : List StringCursor}
    (hs : ∀ c ∈ ch, keysSortedB (cursorKeys c) = true)
    (hne : ∀ c ∈ ch, ∀ k ∈ cursorKeys c, k ≠ []) :
    (verifyHeap ch = .ok () ↔ (heapKeys ch).Nodup) := by
  rw [verifyHeap, verifyLoopF_iff (cursSize ch) [] ch (Nat.le_refl _) hs hne]
  constructor
  · exact fun h => h.1
  · exact fun h => ⟨h, fun ht => absurd rfl ht⟩

theorem createHeap_cons_nil {n : Nat} {r : Ring} {rest : RingDir}
    (h : ringKeys r = []) : createHeap ((n, r) :: rest) = createHeap rest := by
  unfold createHeap
  rw [List.filterMap_cons]
  simp [h]

theorem createHeap_cons_cons {n : Nat} {r : Ring} {rest : RingDir} {k : Bytes}
    {ks : List Bytes} (h : ringKeys r = k :: ks) :
    createHeap ((n, r) :: rest) = ⟨k, ks⟩ :: createHeap rest := by
  unfold createHeap
  rw [List.filterMap_cons]
  simp [h]

/-- The heap built by `createHeap` carries exactly the keys of all rings. -/
theorem heapKeys_createHeap : ∀ (rings : RingDir),
    (heapKeys (createHeap rings)).Perm (rings.map (fun p => ringKeys p.2)).flatten := by
  intro rings
  induction rings with
  | nil => exact List.Perm.refl _
  | cons q rest ih =>
    obtain ⟨n, r⟩ := q
    cases hk : ringKeys r with
    | nil =>
      rw [createHeap_cons_nil hk, List.map_cons, List.flatten_cons, hk,
        List.nil_append]
      exact ih
    | cons k ks =>
      rw [createHeap_cons_cons hk, List.map_cons, List.flatten_cons, hk,
        heapKeys_cons]
      exact (ih.append_left _)

/-- Every cursor of the fresh heap reads off the keys of one of the rings. -/
theorem mem_createHeap : ∀ {rings : RingDir} {c : StringCursor},
    c ∈ createHeap rings → ∃ p ∈ rings, ringKeys p.2 = cursorKeys c := by
  intro rings
  induction rings with
  | nil => intro c h; simp [createHeap] at h
  | cons q rest ih =>
    intro c h
    obtain ⟨n, r⟩ := q
    cases hk : ringKeys r with
    | nil =>
      rw [createHeap_cons_nil hk] at h
      obtain ⟨p, hp, he⟩ := ih h
      exact ⟨p, List.mem_cons_of_mem _ hp, he⟩
    | cons k ks =>
      rw [createHeap_cons_cons hk] at h
      rcases List.mem_cons.1 h with rfl | hmem
      · exact ⟨(n, r), List.mem_cons_self _ _, by rw [hk, cursorKeys]⟩
      · obtain ⟨p, hp, he⟩ := ih hmem
        exact ⟨p, List.mem_cons_of_mem _ hp, he⟩

theorem ne_of_bytesLt {a b : Bytes} (h : bytesLt a b = true) : a ≠ b := by
  intro he
  subst he
  rw [bytesLt_irrefl] at h
  exact absurd h (by decide)

/-- C5: over rings whose buckets are sorted with non-empty keys (the
invariants bolt maintains), `VerifyCompressed` succeeds exactly when every
key appears in at most one ring — it reports `errOrderingWrong` whenever
some key occurs in two rings, at the first duplicate or out-of-order key
the k-way merge observes. -/
theorem claim_C5_verifyCompressed (rings : RingDir)
    (hs : ∀ p ∈ rings, keysSortedB (ringKeys p.2) = true)
    (hne : ∀ p ∈ rings, ∀ k ∈ ringKeys p.2, k ≠ []) :
    (verifyCompressed rings = .ok () ↔
      List.Pairwise (fun p q => (ringKeys p.2).Disjoint (ringKeys q.2)) rings) := by
  have hsc : ∀ c ∈ createHeap rings, keysSortedB (cursorKeys c) = true := by
    intro c hc
    obtain ⟨p, hp, he⟩ := mem_createHeap hc
    rw [← he]
    exact hs p hp
  have hnec : ∀ c ∈ createHeap rings, ∀ k ∈ cursorKeys c, k ≠ [] := by
    intro c hc k hk
    obtain ⟨p, hp, he⟩ := mem_createHeap hc
    exact hne p hp k (he ▸ hk)
  rw [verifyCompressed, verifyHeap_iff hsc hnec,
    (heapKeys_createHeap rings).nodup_iff, List.nodup_flatten, List.pairwise_map]
  have hnds : ∀ l ∈ rings.map (fun p => ringKeys p.2), l.Nodup := by
    intro l hl
    obtain ⟨p, hp, rfl⟩ := List.mem_map.1 hl
    exact (keysSortedB_iff_pairwise.1 (hs p hp)).imp (fun hab => ne_of_bytesLt hab)
  constructor
  · rintro ⟨_, hpw⟩
    exact hpw
  · intro hpw
    exact ⟨hnds, hpw⟩

theorem claim_C5_witness :
    (verifyCompressed [(0, [([1], [0]), ([2], [0])]), (1, [([2], [0])])] = .ok () ↔
      List.Pairwise (fun p q => (ringKeys p.2).Disjoint (ringKeys q.2))
        [(0, [([1], [0]), ([2], [0])]), (1, [([2], [0])])]) :=
  claim_C5_verifyCompressed _ (by decide) (by decide)

/-! ### Rotation (`CycleNodes`) -/

theorem mem_of_getLastSome {α : Type} : ∀ {l : List α} {a : α},
    l.getLast? = some a → a ∈ l := by
  intro l
  induction l with
  | nil => intro a h; exact absurd h (by simp)
  | cons x rest ih =>
    intro a h
    cases rest with
    | nil =>
      simp only [List.getLast?_singleton, Option.some.injEq] at h
      subst h
      exact List.mem_cons_self _ _
    | cons y t =>
      rw [List.getLast?_cons_cons] at h
      exact List.mem_cons_of_mem _ (ih h)

/-- The trim loop only removes rings from the front: its result is a suffix
of the original directory. -/
theorem trimOld_suffix : ∀ (rs : RingDir) (c : Nat) (m : Int),
    trimOld rs c m <:+ rs := by
  intro rs
  induction rs with
  | nil => intro c m; simp [trimOld]
  | cons r rest ih =>
    intro c m
    rw [trimOld]
    by_cases h : (c : Int) > m
    · rw [if_pos h]
      exact (ih (c - 1) m).trans (List.suffix_cons r rest)
    · rw [if_neg h]

/-- Count of rings the trim loop leaves, when started with the true count:
everything when the count is within the minimum, the minimum otherwise. -/
theorem trimOld_length : ∀ (rs : RingDir) (m : Int), 1 ≤ m →
    (trimOld rs rs.length m).length = min rs.length m.toNat := by
  intro rs
  induction rs with
  | nil => intro m hm; simp [trimOld]
  | cons r rest ih =>
    intro m hm
    rw [trimOld]
    by_cases h : ((r :: rest).length : Int) > m
    · rw [if_pos h]
      have heq : ((r :: rest).length : Nat) - 1 = rest.length := by
        simp [List.length_cons]
      rw [heq, ih m hm]
      simp only [List.length_cons] at h ⊢
      omega
    · rw [if_neg h]
      simp only [List.length_cons] at h ⊢
      omega

theorem insertRing_length : ∀ (rs : RingDir) (n : Nat),
    (insertRing rs n).length = rs.length + 1 := by
  intro rs
  induction rs with
  | nil => intro n; rfl
  | cons r rest ih =>
    intro n
    rw [insertRing]
    by_cases h : n < r.1
    · rw [if_pos h]
      rfl
    · rw [if_neg h]
      simp [ih n]

/-- When the new name is above every existing name, `CreateBucket` appends
the new ring at the end of the directory. -/
theorem insertRing_append : ∀ {rs : RingDir} {n : Nat},
    (∀ q ∈ ringNames rs, q < n) → insertRing rs n = rs ++ [(n, [])] := by
  intro rs
  induction rs with
  | nil => intro n _; rfl
  | cons r rest ih =>
    intro n hbound
    rw [insertRing]
    have hr : r.1 < n := hbound r.1 (by simp [ringNames])
    rw [if_neg (by omega)]
    rw [ih (fun q hq => hbound q (by simp [ringNames] at hq ⊢; exact Or.inr hq))]
    rfl

/-- In an ascending name list, every name is bounded by the last one. -/
theorem natsAsc_le_getLast : ∀ {l : List Nat} {p : Nat},
    natsAscB l = true → l.getLast? = some p → ∀ q ∈ l, q ≤ p := by
  intro l
  induction l with
  | nil => intro p _ h; exact absurd h (by simp)
  | cons a rest ih =>
    intro p hasc hlast q hq
    cases rest with
    | nil =>
      simp only [List.getLast?_singleton, Option.some.injEq] at hlast
      subst hlast
      simp only [List.mem_singleton] at hq
      omega
    | cons b t =>
      rw [List.getLast?_cons_cons] at hlast
      have hpw := natsAscB_iff_pairwise.1 hasc
      rw [List.pairwise_cons] at hpw
      have hasct : natsAscB (b :: t) = true := natsAscB_iff_pairwise.2 hpw.2
      rcases List.mem_cons.1 hq with rfl | hmem
      · have hp : p ∈ b :: t := mem_of_getLastSome hlast
        exact Nat.le_of_lt (hpw.1 p hp)
      · exact ih hasct hlast q hmem

/-- A nonempty suffix ends where the full list ends. -/
theorem getLast?_of_suffix {α : Type} {l1 l2 : List α}
    (h : l1 <:+ l2) (hne : l1 ≠ []) : l1.getLast? = l2.getLast? := by
  obtain ⟨t, rfl⟩ := h
  cases l1 with
  | nil => exact absurd rfl hne
  | cons a l => exact (List.getLast?_append_of_ne_nil _ (by simp)).symm

/-- Unfolding `CycleNodes` when the trimmed directory is empty. -/
theorem cycleNodes_eq_none {rings : RingDir} {m : Int}
    (hlast : (trimOld rings rings.length m).getLast? = none) :
    cycleNodes rings m = .err .nilKeyPanic := by
  simp only [cycleNodes, hlast]

/-- Unfolding `CycleNodes` when the trimmed directory still has a last
ring. -/
theorem cycleNodes_eq_some {rings : RingDir} {m : Int} {lb : Nat × Ring}
    (hlast : (trimOld rings rings.length m).getLast? = some lb) :
    cycleNodes rings m =
      if (ringNames (trimOld rings rings.length m)).contains (nextKey lb.1) = true
      then .err .bucketExists
      else .ok (insertRing (trimOld rings rings.length m) (nextKey lb.1)) := by
  simp only [cycleNodes, hlast]

/-- Length evolution of one successful rotation, for a positive minimum. -/
theorem cycleNodes_ok_length {rings out : RingDir} {m : Int}
    (hm : 1 ≤ m) (h : cycleNodes rings m = .ok out) :
    out.length = min rings.length m.toNat + 1 := by
  cases hlast : (trimOld rings rings.length m).getLast? with
  | none =>
    rw [cycleNodes_eq_none hlast] at h
    exact Outcome.noConfusion h
  | some lb =>
    rw [cycleNodes_eq_some hlast] at h
    by_cases hcont :
        (ringNames (trimOld rings rings.length m)).contains (nextKey lb.1) = true
    · rw [if_pos hcont] at h
      exact Outcome.noConfusion h
    · rw [if_neg hcont] at h
      injection h with h'
      subst h'
      rw [insertRing_length, trimOld_length rings m hm]

/-- C10: with `minNumOldBuckets ≥ 1` and a nonempty ring directory, the trim
loop of `CycleNodes` leaves at least one ring, so `cursor.Last()` hands
`nextKey` a real 8-byte name and the big-endian decode cannot hit the
nil-slice panic; only `minNumOldBuckets ≤ 0` can trim every ring. -/
theorem claim_C10_trim_guard (rings : RingDir) (m : Int)
    (hm : 1 ≤ m) (hne : rings ≠ []) :
    trimOld rings rings.length m ≠ [] ∧
      cycleNodes rings m ≠ .err .nilKeyPanic := by
  have hlen : (trimOld rings rings.length m).length = min rings.length m.toNat :=
    trimOld_length rings m hm
  have hpos : 1 ≤ (trimOld rings rings.length m).length := by
    rw [hlen]
    have : 1 ≤ rings.length := by
      cases rings with
      | nil => exact absurd rfl hne
      | cons r rest => simp
    omega
  have htrim : trimOld rings rings.length m ≠ [] := by
    intro hcontr
    rw [hcontr] at hpos
    simp at hpos
  refine ⟨htrim, ?_⟩
  cases hlast : (trimOld rings rings.length m).getLast? with
  | none => exact absurd (List.getLast?_eq_none_iff.1 hlast) htrim
  | some lb =>
    rw [cycleNodes_eq_some hlast]
    by_cases hcont :
        (ringNames (trimOld rings rings.length m)).contains (nextKey lb.1) = true
    · rw [if_pos hcont]
      intro hcontr
      injection hcontr with he
      exact Err.noConfusion he
    · rw [if_neg hcont]
      intro hcontr
      exact Outcome.noConfusion hcontr

theorem claim_C10_witness :
    trimOld freshDB freshDB.length 2 ≠ [] ∧
      cycleNodes freshDB 2 ≠ .err .nilKeyPanic :=
  claim_C10_trim_guard freshDB 2 (by decide) (by decide)

/-- C4 counterexample: from the single-ring state whose ring is named
`2^64 − 1` and holds one entry, `CycleNodes` succeeds — `uint64`
wraparound names the new ring 0 — but the newest (largest-name) ring
afterwards is the old, non-empty ring, whose name is not
`previous_newest_name + 1`. -/
theorem claim_C4_counterexample :
    cycleNodes [(2 ^ 64 - 1, [([1], [2])])] 2 =
        .ok [(0, []), (2 ^ 64 - 1, [([1], [2])])] ∧
      ([(0, []), (2 ^ 64 - 1, [([1], [2])])] : RingDir).getLast? =
        some (2 ^ 64 - 1, [([1], [2])]) ∧
      (2 ^ 64 - 1 : Nat) ≠ (2 ^ 64 - 1) + 1 := by
  refine ⟨by decide, by decide, by decide⟩

/-- C4 (amended): for a store state whose ring directory is sorted and
nonempty and whose newest name `p` satisfies `p + 1 < 2^64` (no `uint64`
wraparound), a successful `CycleNodes` leaves a newest ring that is empty
and named `p + 1`. -/
theorem claim_C4_rotate_newest (rings out : RingDir) (m : Int) (lb : Nat × Ring)
    (hasc : natsAscB (ringNames rings) = true)
    (hlast : rings.getLast? = some lb)
    (hwrap : lb.1 + 1 < 2 ^ 64)
    (h : cycleNodes rings m = .ok out) :
    out.getLast? = some (lb.1 + 1, []) := by
  cases hlast' : (trimOld rings rings.length m).getLast? with
  | none =>
    rw [cycleNodes_eq_none hlast'] at h
    exact Outcome.noConfusion h
  | some lb' =>
    rw [cycleNodes_eq_some hlast'] at h
    by_cases hcont :
        (ringNames (trimOld rings rings.length m)).contains (nextKey lb'.1) = true
    · rw [if_pos hcont] at h
      exact Outcome.noConfusion h
    · rw [if_neg hcont] at h
      injection h with h'
      subst h'
      have htrimne : trimOld rings rings.length m ≠ [] := by
        intro hcontr
        rw [hcontr] at hlast'
        exact Option.noConfusion hlast'
      have hsame : lb' = lb := by
        have := getLast?_of_suffix (trimOld_suffix rings rings.length m) htrimne
        rw [hlast', hlast] at this
        exact Option.some.inj this
      subst hsame
      have hnames_last : (ringNames rings).getLast? = some lb'.1 := by
        rw [ringNames, List.getLast?_map, hlast]
        rfl
      have hbound : ∀ q ∈ ringNames rings, q ≤ lb'.1 :=
        natsAsc_le_getLast hasc hnames_last
      have hkey : nextKey lb'.1 = lb'.1 + 1 := by
        rw [nextKey, Nat.mod_eq_of_lt hwrap]
      have hboundt : ∀ q ∈ ringNames (trimOld rings rings.length m),
          q < nextKey lb'.1 := by
        intro q hq
        have hsub : q ∈ ringNames rings := by
          have := ((trimOld_suffix rings rings.length m).sublist.map Prod.fst).subset
          exact this hq
        rw [hkey]
        exact Nat.lt_succ_of_le (hbound q hsub)
      rw [insertRing_append hboundt, hkey, List.getLast?_concat]

theorem claim_C4_witness :
    cycleNodes [(0, [([5], [6])])] 2 = .ok [(0, [([5], [6])]), (1, [])] ∧
      ([(0, [([5], [6])]), (1, [])] : RingDir).getLast? = some (0 + 1, []) :=
  ⟨by decide,
    claim_C4_rotate_newest [(0, [([5], [6])])] [(0, [([5], [6])]), (1, [])] 2
      (0, [([5], [6])]) (by decide) (by decide) (by decide) (by decide)⟩

/-- Length of the state after `k` rotations, for any positive minimum and
any start within the steady-state bound. -/
theorem iterateCycle_length {m : Int} (hm : 1 ≤ m) :
    ∀ (k : Nat) (rings out : RingDir),
      rings.length ≤ m.toNat + 1 →
      iterateCycle rings m k = .ok out →
      out.length = min (rings.length + k) (m.toNat + 1) := by
  intro k
  induction k with
  | zero =>
    intro rings out hle h
    simp only [iterateCycle] at h
    injection h with h'
    subst h'
    omega
  | succ k ih =>
    intro rings out hle h
    simp only [iterateCycle] at h
    cases hc : cycleNodes rings m with
    | err e =>
      rw [hc] at h
      exact Outcome.noConfusion h
    | ok rings' =>
      rw [hc] at h
      have hlen' := cycleNodes_ok_length hm hc
      have hout := ih rings' out (by omega) h
      omega

/-- C3 (amended): starting from a fresh cache, with `min_rings ≥ 1` and at
least `min_rings − 1` successful rotations, the ring count is
`min (1 + k) (min_rings + 1)`, hence lies in
`{min_rings, min_rings + 1}`; in particular with `min_rings = 2` five
rotations leave exactly 3 rings. -/
theorem claim_C3_rotation_count (m : Int) (k : Nat) (out : RingDir)
    (hm : 1 ≤ m) (hk : m ≤ (k : Int) + 1)
    (h : iterateCycle freshDB m k = .ok out) :
    out.length = min (1 + k) (m.toNat + 1) ∧
      (out.length = m.toNat ∨ out.length = m.toNat + 1) := by
  have hlen := iterateCycle_length hm k freshDB out (by simp [freshDB]) h
  have hfresh : (freshDB : RingDir).length = 1 := rfl
  rw [hfresh] at hlen
  constructor
  · omega
  · omega

theorem claim_C3_witness :
    iterateCycle freshDB 2 5 = .ok [(3, []), (4, []), (5, [])] ∧
      (([(3, []), (4, []), (5, [])] : RingDir).length = (2 : Int).toNat ∨
        ([(3, []), (4, []), (5, [])] : RingDir).length = (2 : Int).toNat + 1) :=
  ⟨by decide,
    (claim_C3_rotation_count 2 5 [(3, []), (4, []), (5, [])] (by decide) (by decide)
      (by decide)).2⟩

/-- C3 counterexample: with `min_rings = 3`, a single successful rotation
from a fresh cache leaves 2 rings, outside `{min_rings, min_rings + 1}`. -/
theorem claim_C3_counterexample :
    iterateCycle freshDB 3 1 = .ok [(0, []), (1, [])] ∧
      ([(0, []), (1, [])] : RingDir).length = 2 ∧
      ¬((2 : Nat) = 3 ∨ (2 : Nat) = 3 + 1) := by
  refine ⟨by decide, by decide, by decide⟩

/-! ### Write path -/

/-- When every key of the batch is non-empty, `putAll` is the plain fold of
insert-or-replace. -/
theorem putAll_ok : ∀ {tw : List (Bytes × Bytes)} {r : Ring},
    (∀ p ∈ tw, p.1 ≠ []) →
    putAll r tw = .ok (tw.foldl (fun acc p => ringPut acc p.1 p.2) r) := by
  intro tw
  induction tw with
  | nil => intro r _; rfl
  | cons a rest ih =>
    intro r hk
    rw [putAll, bucketPut, if_neg (hk a (List.mem_cons_self _ _))]
    exact ih (fun p hp => hk p (List.mem_cons_of_mem _ hp))

theorem foldl_ringPut_sorted : ∀ {tw : List (Bytes × Bytes)} {r : Ring},
    keysSortedB (ringKeys r) = true →
    keysSortedB (ringKeys (tw.foldl (fun acc p => ringPut acc p.1 p.2) r)) = true := by
  intro tw
  induction tw with
  | nil => intro r hs; exact hs
  | cons a rest ih =>
    intro r hs
    exact ih (ringPut_sorted hs)

/-- Last-write-wins: reading any key back from the folded batch yields the
value of the last pair of the batch at that key, or the previous value
when the batch never writes it. -/
theorem seekEq_foldl_ringPut : ∀ {tw : List (Bytes × Bytes)} {r : Ring} {k : Bytes},
    keysSortedB (ringKeys r) = true →
    seekEq (tw.foldl (fun acc p => ringPut acc p.1 p.2) r) k =
      (match tw.reverse.find? (fun p => p.1 == k) with
       | some p => some p.2
       | none => seekEq r k) := by
  intro tw
  induction tw with
  | nil => intro r k _; rfl
  | cons a rest ih =>
    intro r k hs
    rw [List.foldl_cons, ih (ringPut_sorted hs), List.reverse_cons, List.find?_append]
    cases hfind : rest.reverse.find? (fun p => p.1 == k) with
    | some p => rfl
    | none =>
      by_cases hak : a.1 = k
      · rw [List.find?_cons_of_pos _ (by simp [hak])]
        rw [seekEq_ringPut hs]
        simp [hak]
      · rw [List.find?_cons_of_neg _ (by simp [hak]), List.find?_nil]
        rw [seekEq_ringPut hs, if_neg (fun he => hak he.symm)]
        rfl

/-- With ascending (hence distinct) names, mutating the last-named ring
replaces exactly the final entry of the directory. -/
theorem setRing_last : ∀ {rings : RingDir} {lb : Nat × Ring} {r' : Ring},
    natsAscB (ringNames rings) = true →
    rings.getLast? = some lb →
    setRing rings lb.1 r' = rings.dropLast ++ [(lb.1, r')] := by
  intro rings
  induction rings with
  | nil => intro lb r' _ h; exact absurd h (by simp)
  | cons a rest ih =>
    intro lb r' hasc hlast
    cases rest with
    | nil =>
      simp only [List.getLast?_singleton, Option.some.injEq] at hlast
      subst hlast
      rw [setRing, if_pos rfl]
      rfl
    | cons b t =>
      rw [List.getLast?_cons_cons] at hlast
      have hpw := natsAscB_iff_pairwise.1 hasc
      rw [ringNames, List.map_cons, List.pairwise_cons] at hpw
      have hasct : natsAscB (ringNames (b :: t)) = true :=
        natsAscB_iff_pairwise.2 hpw.2
      have hlbmem : lb.1 ∈ ringNames (b :: t) := by
        rw [ringNames]
        have := mem_of_getLastSome hlast
        exact List.mem_map.2 ⟨lb, this, rfl⟩
      have hne : a.1 ≠ lb.1 := Nat.ne_of_lt (hpw.1 lb.1 (by simpa [ringNames] using hlbmem))
      obtain ⟨a1, a2⟩ := a
      rw [setRing, if_neg hne]
      rw [ih hasct hlast]
      rfl

/-- C8: `Write` puts each pair of the batch, in batch order, into the ring
with the largest name inside one write transaction; duplicate keys within
one batch resolve to the last pair's value; no ring other than the newest
is modified.  (Hypotheses: the directory is nonempty with ascending names,
the newest ring is sorted, and the batch's keys are non-empty — bolt
rejects empty keys with `ErrKeyRequired`.) -/
theorem claim_C8_write (rings : RingDir) (towrite : List (Bytes × Bytes))
    (lb : Nat × Ring)
    (hlast : rings.getLast? = some lb)
    (hasc : natsAscB (ringNames rings) = true)
    (hsorted : keysSortedB (ringKeys lb.2) = true)
    (hkeys : ∀ p ∈ towrite, p.1 ≠ []) :
    write rings towrite =
        .ok (rings.dropLast ++
          [(lb.1, towrite.foldl (fun acc p => ringPut acc p.1 p.2) lb.2)]) ∧
      ∀ k, seekEq (towrite.foldl (fun acc p => ringPut acc p.1 p.2) lb.2) k =
        (match towrite.reverse.find? (fun p => p.1 == k) with
         | some p => some p.2
         | none => seekEq lb.2 k) := by
  constructor
  · have hw : write rings towrite =
        Outcome.ok (setRing rings lb.1
          (towrite.foldl (fun acc p => ringPut acc p.1 p.2) lb.2)) := by
      rw [write, hlast]
      show (match putAll lb.2 towrite with
        | Outcome.err e => Outcome.err e
        | Outcome.ok r' => Outcome.ok (setRing rings lb.1 r')) = _
      rw [@putAll_ok towrite lb.2 hkeys]
    rw [hw, setRing_last hasc hlast]
  · intro k
    exact seekEq_foldl_ringPut hsorted

/-! ### Delete path -/

theorem deleteKeysAux_cons_found {r : Ring} {ret : List Bool} {idx : Nat} {k : Bytes}
    {ks : List Bytes} {v : Bytes} (h : seekEq r k = some v) :
    deleteKeysAux r ret idx (k :: ks) =
      deleteKeysAux (ringDel r k) (ret.set idx true) (idx + 1) ks := by
  simp only [deleteKeysAux, h]

theorem deleteKeysAux_cons_miss {r : Ring} {ret : List Bool} {idx : Nat} {k : Bytes}
    {ks : List Bytes} (h : seekEq r k = none) :
    deleteKeysAux r ret idx (k :: ks) = deleteKeysAux r ret (idx + 1) ks := by
  simp only [deleteKeysAux, h]

/-- The ring that `deleteKeys` leaves: sorted, holding exactly the original
keys that the batch does not name. -/
theorem deleteKeysAux_ring : ∀ (ks : List Bytes) (r : Ring) (ret : List Bool) (idx : Nat),
    keysSortedB (ringKeys r) = true →
    (keysSortedB (ringKeys (deleteKeysAux r ret idx ks).1) = true ∧
     ∀ k1, k1 ∈ ringKeys (deleteKeysAux r ret idx ks).1 ↔
       (k1 ∈ ringKeys r ∧ k1 ∉ ks)) := by
  intro ks
  induction ks with
  | nil =>
    intro r ret idx hs
    exact ⟨hs, fun k1 => by simp [deleteKeysAux]⟩
  | cons k ks' ih =>
    intro r ret idx hs
    cases hf : seekEq r k with
    | some v =>
      rw [deleteKeysAux_cons_found hf]
      have hds : keysSortedB (ringKeys (ringDel r k)) = true := ringDel_sorted hs
      obtain ⟨ihs, ihm⟩ := ih (ringDel r k) (ret.set idx true) (idx + 1) hds
      refine ⟨ihs, fun k1 => ?_⟩
      rw [ihm k1, ringKeys_ringDel_iff hs]
      simp only [List.mem_cons]
      constructor
      · rintro ⟨⟨hm, hne⟩, hnm⟩
        exact ⟨hm, fun hor => hor.elim hne hnm⟩
      · rintro ⟨hm, hnm⟩
        exact ⟨⟨hm, fun he => hnm (Or.inl he)⟩, fun hin => hnm (Or.inr hin)⟩
    | none =>
      rw [deleteKeysAux_cons_miss hf]
      have hnk : k ∉ ringKeys r := (seekEq_none_iff hs).1 hf
      obtain ⟨ihs, ihm⟩ := ih r ret (idx + 1) hs
      refine ⟨ihs, fun k1 => ?_⟩
      rw [ihm k1]
      simp only [List.mem_cons]
      constructor
      · rintro ⟨hm, hnm⟩
        refine ⟨hm, fun hor => ?_⟩
        rcases hor with rfl | hin
        · exact hnk hm
        · exact hnm hin
      · rintro ⟨hm, hnm⟩
        exact ⟨hm, fun hin => hnm (Or.inr hin)⟩

/-- The presence vector that `deleteKeys` produces on one ring: positions
below `idx` unchanged, position `idx + i` or-ed with "key `i` was in this
ring" — provided the batch has no duplicate key. -/
theorem deleteKeysAux_ret : ∀ (ks : List Bytes) (r : Ring) (ret : List Bool) (idx : Nat),
    keysSortedB (ringKeys r) = true → ks.Nodup →
    ((deleteKeysAux r ret idx ks).2.length = ret.length ∧
     (∀ j, j < idx → (deleteKeysAux r ret idx ks).2[j]? = ret[j]?) ∧
     (∀ i, (hi : i < ks.length) →
       (deleteKeysAux r ret idx ks).2[idx + i]? =
         (ret[idx + i]?).map
           (fun b => b || decide (ks.get ⟨i, hi⟩ ∈ ringKeys r)))) := by
  intro ks
  induction ks with
  | nil =>
    intro r ret idx _ _
    exact ⟨rfl, fun j _ => rfl, fun i hi => absurd hi (by simp)⟩
  | cons k ks' ih =>
    intro r ret idx hs hnd
    have hnd' : ks'.Nodup := (List.nodup_cons.1 hnd).2
    have hknotin : k ∉ ks' := (List.nodup_cons.1 hnd).1
    cases hf : seekEq r k with
    | some v =>
      rw [deleteKeysAux_cons_found hf]
      have hds : keysSortedB (ringKeys (ringDel r k)) = true := ringDel_sorted hs
      obtain ⟨ihl, ihlow, ihhi⟩ :=
        ih (ringDel r k) (ret.set idx true) (idx + 1) hds hnd'
      have hk : k ∈ ringKeys r := by
        have : (seekEq r k).isSome = true := by rw [hf]; rfl
        exact (seekEq_isSome_iff hs).1 this
      refine ⟨by rw [ihl]; simp, ?_, ?_⟩
      · intro j hj
        rw [ihlow j (Nat.lt_succ_of_lt hj),
          List.getElem?_set_ne (Nat.ne_of_gt hj)]
      · intro i hi
        cases i with
        | zero =>
          simp only [Nat.add_zero]
          rw [ihlow idx (Nat.lt_succ_self idx), List.getElem?_set_self']
          cases hr : ret[idx]? <;> simp [hk]
        | succ i' =>
          have hi' : i' < ks'.length := by simpa using hi
          have hshift : idx + (i' + 1) = (idx + 1) + i' := by omega
          rw [hshift, ihhi i' hi',
            List.getElem?_set_ne (show idx ≠ idx + 1 + i' by omega)]
          have hget : (k :: ks').get ⟨i' + 1, hi⟩ = ks'.get ⟨i', hi'⟩ := rfl
          rw [hget]
          have hne' : ks'.get ⟨i', hi'⟩ ≠ k := by
            intro he
            apply hknotin
            rw [← he]
            exact List.getElem_mem hi'
          have hiff : (ks'.get ⟨i', hi'⟩ ∈ ringKeys (ringDel r k)) ↔
              (ks'.get ⟨i', hi'⟩ ∈ ringKeys r) := by
            rw [ringKeys_ringDel_iff hs]
            exact ⟨fun h => h.1, fun h => ⟨h, hne'⟩⟩
          have hdeq : decide (ks'.get ⟨i', hi'⟩ ∈ ringKeys (ringDel r k)) =
              decide (ks'.get ⟨i', hi'⟩ ∈ ringKeys r) := decide_eq_decide.2 hiff
          rw [hdeq]
    | none =>
      rw [deleteKeysAux_cons_miss hf]
      have hnk : k ∉ ringKeys r := (seekEq_none_iff hs).1 hf
      obtain ⟨ihl, ihlow, ihhi⟩ := ih r ret (idx + 1) hs hnd'
      refine ⟨ihl, ?_, ?_⟩
      · intro j hj
        exact ihlow j (Nat.lt_succ_of_lt hj)
      · intro i hi
        cases i with
        | zero =>
          simp only [Nat.add_zero]
          rw [ihlow idx (Nat.lt_succ_self idx)]
          cases hr : ret[idx]? <;> simp [hnk]
        | succ i' =>
          have hi' : i' < ks'.length := by simpa using hi
          have hshift : idx + (i' + 1) = (idx + 1) + i' := by omega
          rw [hshift, ihhi i' hi']
          rfl

theorem deleteFold_cons (n : Nat) (r : Ring) (rest : RingDir) (keys : List Bytes)
    (ret : List Bool) :
    deleteFold ((n, r) :: rest) keys ret =
      ((n, (deleteKeys keys r ret).1) ::
        (deleteFold rest keys (deleteKeys keys r ret).2).1,
       (deleteFold rest keys (deleteKeys keys r ret).2).2) := rfl

/-- Rings after `Delete`: every ring stays sorted and none of the batch's
keys survives anywhere. -/
theorem deleteFold_rings : ∀ (rings : RingDir) (keys : List Bytes) (ret : List Bool),
    (∀ p ∈ rings, keysSortedB (ringKeys p.2) = true) →
    ((deleteFold rings keys ret).1.length = rings.length ∧
     ∀ p' ∈ (deleteFold rings keys ret).1,
       keysSortedB (ringKeys p'.2) = true ∧ ∀ k1 ∈ keys, k1 ∉ ringKeys p'.2) := by
  intro rings
  induction rings with
  | nil =>
    intro keys ret _
    exact ⟨rfl, by simp [deleteFold]⟩
  | cons q rest ih =>
    intro keys ret hs
    obtain ⟨n, r⟩ := q
    rw [deleteFold_cons]
    have hsr : keysSortedB (ringKeys r) = true := hs (n, r) (List.mem_cons_self _ _)
    obtain ⟨hdels, hdelm⟩ := deleteKeysAux_ring keys r ret 0 hsr
    obtain ⟨ihl, ihp⟩ := ih keys (deleteKeys keys r ret).2
      (fun p hp => hs p (List.mem_cons_of_mem _ hp))
    constructor
    · simpa using ihl
    · intro p' hp'
      rcases List.mem_cons.1 hp' with rfl | hmem
      · refine ⟨hdels, fun k1 hk1 hk1' => ?_⟩
        exact ((hdelm k1).1 hk1').2 hk1
      · exact ihp p' hmem

/-- The presence vector after `Delete` over all rings: position `i` is the
old value or-ed with "key `i` is in some ring" — for duplicate-free
batches. -/
theorem deleteFold_ret : ∀ (rings : RingDir) (keys : List Bytes) (ret : List Bool),
    (∀ p ∈ rings, keysSortedB (ringKeys p.2) = true) → keys.Nodup →
    ((deleteFold rings keys ret).2.length = ret.length ∧
     ∀ i, (hi : i < keys.length) →
       (deleteFold rings keys ret).2[i]? =
         (ret[i]?).map (fun b =>
           b || rings.any (fun p => decide (keys.get ⟨i, hi⟩ ∈ ringKeys p.2)))) := by
  intro rings
  induction rings with
  | nil =>
    intro keys ret _ _
    refine ⟨rfl, fun i hi => ?_⟩
    simp only [deleteFold, List.any_nil, Bool.or_false]
    cases ret[i]? <;> simp
  | cons q rest ih =>
    intro keys ret hs hnd
    obtain ⟨n, r⟩ := q
    rw [deleteFold_cons]
    have hsr : keysSortedB (ringKeys r) = true := hs (n, r) (List.mem_cons_self _ _)
    obtain ⟨h1l, _, h1hi⟩ := deleteKeysAux_ret keys r ret 0 hsr hnd
    obtain ⟨ihl, ihhi⟩ := ih keys (deleteKeys keys r ret).2
      (fun p hp => hs p (List.mem_cons_of_mem _ hp)) hnd
    constructor
    · rw [ihl]
      exact h1l
    · intro i hi
      rw [ihhi i hi]
      have h1i := h1hi i hi
      rw [Nat.zero_add] at h1i
      rw [show deleteKeys keys r ret = deleteKeysAux r ret 0 keys from rfl] at *
      rw [h1i]
      cases hr : ret[i]? <;> simp [Bool.or_assoc]

/-- C6 (amended): for a batch of pairwise-distinct keys over sorted rings,
`Delete` removes every occurrence of each requested key from every ring
and flags position `i` exactly when key `i` was present in at least one
ring before the call; an immediately repeated `Delete` of the same keys
returns all-false. -/
theorem claim_C6_delete (rings : RingDir) (keys : List Bytes)
    (hs : ∀ p ∈ rings, keysSortedB (ringKeys p.2) = true)
    (hnd : keys.Nodup) :
    (deleteOp rings keys).2.length = keys.length ∧
    (∀ i, (hi : i < keys.length) →
      ((deleteOp rings keys).2[i]? = some true ↔
        ∃ p ∈ rings, keys.get ⟨i, hi⟩ ∈ ringKeys p.2)) ∧
    (∀ p' ∈ (deleteOp rings keys).1, ∀ k1 ∈ keys, k1 ∉ ringKeys p'.2) ∧
    (deleteOp (deleteOp rings keys).1 keys).2 = List.replicate keys.length false := by
  have hrings := deleteFold_rings rings keys (List.replicate keys.length false) hs
  have hret := deleteFold_ret rings keys (List.replicate keys.length false) hs hnd
  have hs' : ∀ p ∈ (deleteOp rings keys).1, keysSortedB (ringKeys p.2) = true :=
    fun p hp => (hrings.2 p hp).1
  refine ⟨?_, ?_, ?_, ?_⟩
  · rw [deleteOp, hret.1]
    simp
  · intro i hi
    rw [deleteOp, hret.2 i hi, List.getElem?_replicate, if_pos hi]
    simp [List.any_eq_true]
  · intro p' hp' k1 hk1
    exact (hrings.2 p' hp').2 k1 hk1
  · have hret2 := deleteFold_ret (deleteOp rings keys).1 keys
      (List.replicate keys.length false) hs' hnd
    apply List.ext_getElem?
    intro i
    by_cases hi : i < keys.length
    · have hany : (deleteOp rings keys).1.any
          (fun p => decide (keys.get ⟨i, hi⟩ ∈ ringKeys p.2)) = false := by
        rw [List.any_eq_false]
        intro p hp
        simp only [decide_eq_true_eq]
        refine (hrings.2 p hp).2 (keys.get ⟨i, hi⟩) ?_
        exact List.getElem_mem hi
      rw [deleteOp, hret2.2 i hi, hany]
      simp [List.getElem?_replicate, hi]
    · have hlen1 : (deleteOp (deleteOp rings keys).1 keys).2.length = keys.length := by
        rw [deleteOp, hret2.1]
        simp
      rw [List.getElem?_eq_none (by omega), List.getElem?_eq_none (by simp; omega)]

/-- C6 counterexample: `Delete([k, k])` on a store holding `k` returns
`[true, false]`, although `k` was present in a ring before the call —
the claim as stated predicts `true` at every position naming a
previously-present key. -/
theorem claim_C6_counterexample :
    (deleteOp [(0, [([1], [2])])] [[1], [1]]).2 = [true, false] ∧
      ([1] : Bytes) ∈ ringKeys [([1], [2])] := by
  refine ⟨by decide, by decide⟩

theorem claim_C6_witness :
    ((deleteOp [(0, [([1], [2])]), (1, [([1], [3]), ([4], [5])])] [[1], [9]]).2.length
        = 2 ∧ True) ∧
      (deleteOp (deleteOp [(0, [([1], [2])]), (1, [([1], [3]), ([4], [5])])]
          [[1], [9]]).1 [[1], [9]]).2 = List.replicate 2 false := by
  have h := claim_C6_delete [(0, [([1], [2])]), (1, [([1], [3]), ([4], [5])])]
    [[1], [9]] (by decide) (by decide)
  exact ⟨⟨h.1, trivial⟩, h.2.2.2⟩

theorem claim_C8_witness :
    write [(0, [([1], [2])]), (1, [])] [([3], [4]), ([3], [5])] =
        .ok ([(0, [([1], [2])]), (1, [([3], [5])])]) ∧
      seekEq [([3], [5])] [3] = some [5] := by
  have h := claim_C8_write [(0, [([1], [2])]), (1, [])] [([3], [4]), ([3], [5])]
    (1, []) (by decide) (by decide) (by decide) (by decide)
  refine ⟨?_, ?_⟩
  · have h1 := h.1
    rw [h1]
    decide
  · have h2 := h.2 [3]
    rw [show seekEq [([3], [5])] [3] =
      seekEq ([([3], [4]), ([3], [5])].foldl
        (fun acc p => ringPut acc p.1 p.2) ((1, ([] : Ring)).2)) [3] from by decide]
    rw [h2]
    decide

/-! ### Read path -/

theorem searchRing_cons_found {ring : Ring} {name : Nat} {needsCopy : Bool}
    {i : Nat} {k : Bytes} {ps : List (Nat × Bytes)} {res : List ReadToLocation}
    {v : Bytes} (h : seekEq ring k = some v) :
    searchRing ring name needsCopy ((i, k) :: ps) res =
      searchRing ring name needsCopy ps (res.set i ⟨name, k, some v, needsCopy⟩) := by
  simp only [searchRing, h]

theorem searchRing_cons_miss {ring : Ring} {name : Nat} {needsCopy : Bool}
    {i : Nat} {k : Bytes} {ps : List (Nat × Bytes)} {res : List ReadToLocation}
    (h : seekEq ring k = none) :
    searchRing ring name needsCopy ((i, k) :: ps) res =
      ((i, k) :: (searchRing ring name needsCopy ps res).1,
        (searchRing ring name needsCopy ps res).2) := by
  simp only [searchRing, h]

/-- What one ring pass does: pending keys that this ring misses stay
pending (in order); every hit is recorded at its index, everything else is
untouched. -/
theorem searchRing_spec : ∀ (pending : List (Nat × Bytes)) (ring : Ring) (name : Nat)
    (needsCopy : Bool) (res : List ReadToLocation),
    pending.Pairwise (fun a b => a.1 ≠ b.1) →
    ((searchRing ring name needsCopy pending res).1 =
        pending.filter (fun q => (seekEq ring q.2).isNone) ∧
     (searchRing ring name needsCopy pending res).2.length = res.length ∧
     (∀ j, (∀ k, (j, k) ∉ pending) →
        (searchRing ring name needsCopy pending res).2[j]? = res[j]?) ∧
     (∀ i k, (i, k) ∈ pending →
        (searchRing ring name needsCopy pending res).2[i]? =
          (match seekEq ring k with
           | some v => (res[i]?).map (fun _ => ⟨name, k, some v, needsCopy⟩)
           | none => res[i]?))) := by
  intro pending
  induction pending with
  | nil =>
    intro ring name needsCopy res _
    exact ⟨rfl, rfl, fun j _ => rfl, fun i k h => absurd h (by simp)⟩
  | cons q ps ih =>
    intro ring name needsCopy res hpw
    obtain ⟨i, k⟩ := q
    rw [List.pairwise_cons] at hpw
    obtain ⟨hhead, htail⟩ := hpw
    cases hf : seekEq ring k with
    | some v =>
      rw [searchRing_cons_found hf]
      obtain ⟨ihf, ihl, ihu, ihm⟩ :=
        ih ring name needsCopy (res.set i ⟨name, k, some v, needsCopy⟩) htail
      refine ⟨?_, ?_, ?_, ?_⟩
      · rw [ihf, List.filter_cons]
        simp [hf]
      · rw [ihl]
        simp
      · intro j hj
        have hjps : ∀ k', (j, k') ∉ ps := fun k' hk' => hj k' (List.mem_cons_of_mem _ hk')
        have hji : j ≠ i := by
          intro he
          exact hj k (he ▸ List.mem_cons_self _ _)
        rw [ihu j hjps, List.getElem?_set_ne (fun he => hji he.symm)]
      · intro i' k' hmem
        rcases List.mem_cons.1 hmem with he | hmem'
        · injection he with he1 he2
          rw [he1, he2]
          have hips : ∀ k'', (i, k'') ∉ ps := by
            intro k'' hk''
            exact hhead (i, k'') hk'' rfl
          rw [ihu i hips, List.getElem?_set_self', hf]
          rfl
        · have hi' : i ≠ i' := hhead (i', k') hmem'
          rw [ihm i' k' hmem', List.getElem?_set_ne hi']
    | none =>
      rw [searchRing_cons_miss hf]
      obtain ⟨ihf, ihl, ihu, ihm⟩ := ih ring name needsCopy res htail
      refine ⟨?_, ihl, ?_, ?_⟩
      · rw [List.filter_cons]
        simp [hf, ihf]
      · intro j hj
        exact ihu j (fun k' hk' => hj k' (List.mem_cons_of_mem _ hk'))
      · intro i' k' hmem
        rcases List.mem_cons.1 hmem with he | hmem'
        · injection he with he1 he2
          rw [he1, he2]
          have hips : ∀ k'', (i, k'') ∉ ps := by
            intro k'' hk''
            exact hhead (i, k'') hk'' rfl
          rw [ihu i hips, hf]
        · exact ihm i' k' hmem'

theorem locLoop_cons {name : Nat} {ring : Ring} {rest : List (Nat × Ring)}
    {pending : List (Nat × Bytes)} {flag : Bool} {res : List ReadToLocation}
    (hne : pending.isEmpty = false) :
    locLoop ((name, ring) :: rest) pending flag res =
      locLoop rest (searchRing ring name flag pending res).1 true
        (searchRing ring name flag pending res).2 := by
  simp only [locLoop, hne, Bool.false_eq_true, if_false]

/-- The ring loop, per index: a pending index ends up at its per-key
search outcome, every other index keeps its initial record. -/
theorem locLoop_spec : ∀ (dr : List (Nat × Ring)) (pending : List (Nat × Bytes))
    (flag : Bool) (res : List ReadToLocation),
    pending.Pairwise (fun a b => a.1 ≠ b.1) →
    ((locLoop dr pending flag res).length = res.length ∧
     (∀ j, (∀ k, (j, k) ∉ pending) → (locLoop dr pending flag res)[j]? = res[j]?) ∧
     (∀ i k, (i, k) ∈ pending →
        (locLoop dr pending flag res)[i]? =
          (match lookupDescAux dr k flag with
           | some t => (res[i]?).map (fun _ => ⟨t.1, k, some t.2.1, t.2.2⟩)
           | none => res[i]?))) := by
  intro dr
  induction dr with
  | nil =>
    intro pending flag res _
    exact ⟨rfl, fun j _ => rfl, fun i k _ => rfl⟩
  | cons q rest ih =>
    intro pending flag res hpw
    obtain ⟨name, ring⟩ := q
    cases hemp : pending.isEmpty with
    | true =>
      obtain rfl : pending = [] := List.isEmpty_iff.1 hemp
      have hloc : locLoop ((name, ring) :: rest) [] flag res = res := by
        simp [locLoop]
      exact ⟨by rw [hloc], fun j _ => by rw [hloc], fun i k h => absurd h (by simp)⟩
    | false =>
      rw [locLoop_cons hemp]
      obtain ⟨srf, srl, sru, srm⟩ := searchRing_spec pending ring name flag res hpw
      have hpw' : (searchRing ring name flag pending res).1.Pairwise
          (fun a b => a.1 ≠ b.1) := by
        rw [srf]
        exact hpw.sublist (List.filter_sublist _)
      obtain ⟨ihl, ihu, ihm⟩ :=
        ih (searchRing ring name flag pending res).1 true
          (searchRing ring name flag pending res).2 hpw'
      refine ⟨by rw [ihl, srl], ?_, ?_⟩
      · intro j hj
        have hj' : ∀ k, (j, k) ∉ (searchRing ring name flag pending res).1 := by
          intro k hk
          rw [srf] at hk
          exact hj k (List.mem_filter.1 hk).1
        rw [ihu j hj', sru j hj]
      · intro i k hmem
        rw [lookupDescAux]
        cases hf : seekEq ring k with
        | some v =>
          have hnotp : ∀ k', (i, k') ∉ (searchRing ring name flag pending res).1 := by
            intro k' hk'
            rw [srf] at hk'
            obtain ⟨hmem', hnone⟩ := List.mem_filter.1 hk'
            by_cases hkk : k' = k
            · subst hkk
              rw [hf] at hnone
              simp at hnone
            · have hsym : Symmetric (fun a b : Nat × Bytes => a.1 ≠ b.1) :=
                fun a b h he => h he.symm
              have hne2 : ((i, k) : Nat × Bytes) ≠ (i, k') := by
                intro he
                injection he with _ he2
                exact hkk he2.symm
              have hR := List.Pairwise.forall hsym hpw hmem hmem' hne2
              exact hR rfl
          rw [ihu i hnotp, srm i k hmem, hf]
        | none =>
          have hmem' : (i, k) ∈ (searchRing ring name flag pending res).1 := by
            rw [srf]
            refine List.mem_filter.2 ⟨hmem, ?_⟩
            simp [hf]
          rw [ihm i k hmem', srm i k hmem, hf]

theorem idxKeys_ge : ∀ (ks : List Bytes) (base : Nat) (q : Nat × Bytes),
    q ∈ idxKeys base ks → base ≤ q.1 := by
  intro ks
  induction ks with
  | nil => intro base q h; simp [idxKeys] at h
  | cons k rest ih =>
    intro base q h
    rcases List.mem_cons.1 h with rfl | hmem
    · exact Nat.le_refl _
    · exact Nat.le_of_succ_le (ih (base + 1) q hmem)

theorem idxKeys_pairwise : ∀ (ks : List Bytes) (base : Nat),
    (idxKeys base ks).Pairwise (fun a b => a.1 ≠ b.1) := by
  intro ks
  induction ks with
  | nil => intro base; simp [idxKeys]
  | cons k rest ih =>
    intro base
    rw [idxKeys, List.pairwise_cons]
    refine ⟨?_, ih (base + 1)⟩
    intro q hq
    have := idxKeys_ge rest (base + 1) q hq
    simp only []
    omega

theorem idxKeys_get_mem : ∀ (ks : List Bytes) (base : Nat) (i : Nat)
    (hi : i < ks.length), (base + i, ks.get ⟨i, hi⟩) ∈ idxKeys base ks := by
  intro ks
  induction ks with
  | nil => intro base i hi; simp at hi
  | cons k rest ih =>
    intro base i hi
    cases i with
    | zero => simp [idxKeys]
    | succ i' =>
      have hi' : i' < rest.length := by simpa using hi
      have hshift : base + (i' + 1) = (base + 1) + i' := by omega
      rw [idxKeys]
      refine List.mem_cons_of_mem _ ?_
      rw [hshift]
      exact ih (base + 1) i' hi'

/-- The per-key walk returns, as value, the entry of the first ring (in the
walk's order) containing the key. -/
theorem lookupDescAux_bind : ∀ (dr : List (Nat × Ring)) (k : Bytes) (flag : Bool),
    (lookupDescAux dr k flag).bind (fun t => some t.2.1) =
      (dr.find? (fun p => (seekEq p.2 k).isSome)).bind (fun p => seekEq p.2 k) := by
  intro dr
  induction dr with
  | nil => intro k flag; rfl
  | cons q rest ih =>
    intro k flag
    obtain ⟨name, ring⟩ := q
    cases hf : seekEq ring k with
    | some v =>
      rw [lookupDescAux, hf, List.find?_cons_of_pos _ (by simp [hf])]
      simp [hf]
    | none =>
      rw [lookupDescAux, hf, List.find?_cons_of_neg _ (by simp [hf])]
      exact ih k true

theorem lookupDescAux_none_iff : ∀ (dr : List (Nat × Ring)) (k : Bytes) (flag : Bool),
    (lookupDescAux dr k flag = none ↔ ∀ p ∈ dr, seekEq p.2 k = none) := by
  intro dr
  induction dr with
  | nil => intro k flag; simp [lookupDescAux]
  | cons q rest ih =>
    intro k flag
    obtain ⟨name, ring⟩ := q
    cases hf : seekEq ring k with
    | some v =>
      rw [lookupDescAux, hf]
      simp only [List.mem_cons]
      constructor
      · intro h; exact absurd h (by simp)
      · intro h
        have := h (name, ring) (Or.inl rfl)
        rw [hf] at this
        exact absurd this (by simp)
    | none =>
      rw [lookupDescAux, hf, ih k true]
      simp only [List.mem_cons]
      constructor
      · intro h p hp
        rcases hp with rfl | hp'
        · exact hf
        · exact h p hp'
      · intro h p hp
        exact h p (Or.inr hp)

/-- Once the walk has passed the first ring, any hit carries
`needsCopy = true`. -/
theorem lookupDescAux_flag_true : ∀ (dr : List (Nat × Ring)) (k : Bytes)
    {t : Nat × Bytes × Bool}, lookupDescAux dr k true = some t → t.2.2 = true := by
  intro dr
  induction dr with
  | nil => intro k t h; exact absurd h (by simp [lookupDescAux])
  | cons q rest ih =>
    intro k t h
    obtain ⟨name, ring⟩ := q
    cases hf : seekEq ring k with
    | some v =>
      rw [lookupDescAux, hf] at h
      injection h with h'
      rw [← h']
    | none =>
      rw [lookupDescAux, hf] at h
      exact ih k h

/-- The promote flag of the walk started at the newest ring equals "some
ring holds the key, and the newest ring does not". -/
theorem lookupDescAux_flag_spec : ∀ (rings : RingDir) (k : Bytes),
    (match lookupDescAux rings.reverse k false with
     | some t => t.2.2
     | none => false) =
      (foundInSomeRing rings k && !(newestHas rings k)) := by
  intro rings k
  cases hrev : rings.reverse with
  | nil =>
    obtain rfl : rings = [] := by
      have := congrArg List.reverse hrev
      simpa using this
    rfl
  | cons hd tl =>
    have hlast : rings.getLast? = some hd := by
      rw [← List.head?_reverse rings, hrev]
      rfl
    have hnewest : newestHas rings k = (seekEq hd.2 k).isSome := by
      rw [newestHas, hlast]
    obtain ⟨name, ring⟩ := hd
    cases hf : seekEq ring k with
    | some v =>
      rw [lookupDescAux, hf]
      rw [hnewest] at *
      have hfound : foundInSomeRing rings k = true := by
        rw [foundInSomeRing, List.any_eq_true]
        refine ⟨(name, ring), ?_, by simp [hf]⟩
        rw [← List.mem_reverse, hrev]
        exact List.mem_cons_self _ _
      rw [hfound]
      simp [hf]
    | none =>
      rw [lookupDescAux, hf]
      rw [hnewest]
      cases hrest : lookupDescAux tl k true with
      | some t =>
        show t.2.2 = _
        rw [lookupDescAux_flag_true tl k hrest]
        have hex : ∃ p ∈ tl, (seekEq p.2 k).isSome = true := by
          by_contra hnone
          push_neg at hnone
          have hall : ∀ p ∈ tl, seekEq p.2 k = none := by
            intro p hp
            cases hb : seekEq p.2 k with
            | none => rfl
            | some w => exact absurd (by rw [hb]; rfl) (hnone p hp)
          rw [(lookupDescAux_none_iff tl k true).2 hall] at hrest
          exact Option.noConfusion hrest
        obtain ⟨p, hp, hps⟩ := hex
        have hfound : foundInSomeRing rings k = true := by
          rw [foundInSomeRing, List.any_eq_true]
          refine ⟨p, ?_, hps⟩
          rw [← List.mem_reverse, hrev]
          exact List.mem_cons_of_mem _ hp
        rw [hfound]
        simp [hf]
      | none =>
        have hall := (lookupDescAux_none_iff tl k true).1 hrest
        have hfound : foundInSomeRing rings k = false := by
          rw [foundInSomeRing, List.any_eq_false]
          intro p hp
          have hpm : p ∈ (name, ring) :: tl := by
            rw [← hrev, List.mem_reverse]
            exact hp
          rcases List.mem_cons.1 hpm with rfl | hp'
          · simp [hf]
          · simp [hall p hp']
        rw [hfound]
        rfl

/-- Per-index description of `indexToLocation`: index `i` holds the walk's
outcome for key `i`, or the zero record when no ring has the key. -/
theorem indexToLocation_spec (rings : RingDir) (toread : List Bytes) :
    (indexToLocation rings toread).length = toread.length ∧
    ∀ i, (hi : i < toread.length) →
      (indexToLocation rings toread)[i]? =
        some (match lookupDescAux rings.reverse (toread.get ⟨i, hi⟩) false with
              | some t => ⟨t.1, toread.get ⟨i, hi⟩, some t.2.1, t.2.2⟩
              | none => emptyLoc) := by
  obtain ⟨hl, hu, hm⟩ := locLoop_spec rings.reverse (idxKeys 0 toread) false
    (List.replicate toread.length emptyLoc) (idxKeys_pairwise toread 0)
  constructor
  · rw [indexToLocation, hl, List.length_replicate]
  · intro i hi
    have hmem := idxKeys_get_mem toread 0 i hi
    rw [Nat.zero_add] at hmem
    rw [indexToLocation, hm i (toread.get ⟨i, hi⟩) hmem]
    have hrep : (List.replicate toread.length emptyLoc)[i]? = some emptyLoc := by
      simp [List.getElem?_replicate, hi]
    rw [hrep]
    cases lookupDescAux rings.reverse (toread.get ⟨i, hi⟩) false <;> rfl

/-- In an ascending directory, the ring found by the newest-to-oldest walk
has the largest name among the rings containing the key. -/
theorem newestRingWith_largest : ∀ (rings : RingDir) (k : Bytes),
    natsAscB (ringNames rings) = true →
    ∀ p, newestRingWith rings k = some p →
      ∀ q ∈ rings, (seekEq q.2 k).isSome = true → q.1 ≤ p.1 := by
  intro rings
  induction rings using List.reverseRecOn with
  | nil =>
    intro k _ p hp
    rw [newestRingWith] at hp
    simp at hp
  | append_singleton l a ih =>
    intro k hasc p hp q hq hcont
    rw [newestRingWith] at hp
    rw [show (l ++ [a]).reverse = a :: l.reverse from by simp] at hp
    have hpw := natsAscB_iff_pairwise.1 hasc
    rw [ringNames, List.map_append, List.pairwise_append] at hpw
    have hnames : ∀ r ∈ l, r.1 < a.1 := by
      intro r hr
      exact hpw.2.2 r.1 (List.mem_map.2 ⟨r, hr, rfl⟩) a.1 (by simp)
    by_cases hca : (seekEq a.2 k).isSome = true
    · have hfeq : List.find? (fun p : Nat × Ring => (seekEq p.2 k).isSome)
          (a :: l.reverse) = some a := List.find?_cons_of_pos _ hca
      rw [hfeq] at hp
      injection hp with hp'
      subst hp'
      rcases List.mem_append.1 hq with hql | hqa
      · exact Nat.le_of_lt (hnames q hql)
      · rw [List.mem_singleton.1 hqa]
    · have hfeq : List.find? (fun p : Nat × Ring => (seekEq p.2 k).isSome)
          (a :: l.reverse) =
          List.find? (fun p : Nat × Ring => (seekEq p.2 k).isSome) l.reverse :=
        List.find?_cons_of_neg _ (by simpa using hca)
      rw [hfeq] at hp
      have hascl : natsAscB (ringNames l) = true := by
        rw [ringNames]
        exact natsAscB_iff_pairwise.2 hpw.1
      rcases List.mem_append.1 hq with hql | hqa
      · exact ih k hascl p hp q hql hcont
      · rw [List.mem_singleton.1 hqa] at hcont
        exact absurd hcont hca

/-- C2: for every ordered batch of lookup keys, `Read` returns exactly one
result per key; entry `i` is the value of key `i` taken from the first
ring of the newest-to-oldest walk containing it — under ascending names,
the ring with the largest name containing it — and `nil` (`none`) when no
ring contains it. -/
theorem claim_C2_read (rings : RingDir) (toread : List Bytes) :
    (readOp rings toread).1.length = toread.length ∧
    (∀ i, (hi : i < toread.length) →
      (readOp rings toread).1[i]? =
        some ((newestRingWith rings (toread.get ⟨i, hi⟩)).bind
          (fun p => seekEq p.2 (toread.get ⟨i, hi⟩)))) ∧
    (∀ k, newestRingWith rings k = none ↔ ∀ p ∈ rings, seekEq p.2 k = none) ∧
    (natsAscB (ringNames rings) = true →
      ∀ k p, newestRingWith rings k = some p →
        ∀ q ∈ rings, (seekEq q.2 k).isSome = true → q.1 ≤ p.1) := by
  obtain ⟨hl, hidx⟩ := indexToLocation_spec rings toread
  refine ⟨?_, ?_, ?_, ?_⟩
  · show ((indexToLocation rings toread).map ReadToLocation.value).length = _
    rw [List.length_map, hl]
  · intro i hi
    show ((indexToLocation rings toread).map ReadToLocation.value)[i]? = _
    rw [List.getElem?_map, hidx i hi, newestRingWith,
      ← lookupDescAux_bind rings.reverse (toread.get ⟨i, hi⟩) false]
    cases lookupDescAux rings.reverse (toread.get ⟨i, hi⟩) false <;> rfl
  · intro k
    rw [newestRingWith, List.find?_eq_none]
    constructor
    · intro h p hp
      have := h p (List.mem_reverse.2 hp)
      cases hb : seekEq p.2 k with
      | none => rfl
      | some w => exact absurd (by rw [hb]; rfl) this
    · intro h p hp
      rw [h p (List.mem_reverse.1 hp)]
      simp
  · intro hasc k p hp q hq hcont
    exact newestRingWith_largest rings k hasc p hp q hq hcont

theorem claim_C2_witness :
    (readOp [(1, [([2], [7])]), (4, [([3], [8])])] [[2], [3], [5]]).1.length = 3 ∧
      (readOp [(1, [([2], [7])]), (4, [([3], [8])])] [[2], [3], [5]]).1[0]? =
        some ((newestRingWith [(1, [([2], [7])]), (4, [([3], [8])])] [2]).bind
          (fun p => seekEq p.2 [2])) :=
  ⟨(claim_C2_read [(1, [([2], [7])]), (4, [([3], [8])])] [[2], [3], [5]]).1,
    (claim_C2_read [(1, [([2], [7])]), (4, [([3], [8])])] [[2], [3], [5]]).2.1 0
      (by decide)⟩

/-- C7: `Read` pushes onto the promotion queue exactly the locations
flagged `needsCopy`, and a key's flag is set exactly when some ring holds
the key but the newest ring does not — so a hit in the newest ring and an
absent key emit no promotion request. -/
theorem claim_C7_promotion (rings : RingDir) (toread : List Bytes) :
    (readOp rings toread).2 =
      (indexToLocation rings toread).filter ReadToLocation.needsCopy ∧
    (∀ i, (hi : i < toread.length) →
      ((indexToLocation rings toread)[i]?).map ReadToLocation.needsCopy =
        some (foundInSomeRing rings (toread.get ⟨i, hi⟩) &&
          !(newestHas rings (toread.get ⟨i, hi⟩)))) := by
  refine ⟨rfl, ?_⟩
  intro i hi
  obtain ⟨_, hidx⟩ := indexToLocation_spec rings toread
  rw [hidx i hi, ← lookupDescAux_flag_spec rings (toread.get ⟨i, hi⟩)]
  cases lookupDescAux rings.reverse (toread.get ⟨i, hi⟩) false <;> rfl

theorem claim_C7_witness :
    ((indexToLocation [(1, [([2], [7])]), (4, [([3], [8])])] [[2], [3], [5]])[0]?).map
        ReadToLocation.needsCopy =
      some (foundInSomeRing [(1, [([2], [7])]), (4, [([3], [8])])] [2] &&
        !(newestHas [(1, [([2], [7])]), (4, [([3], [8])])] [2])) :=
  (claim_C7_promotion [(1, [([2], [7])]), (4, [([3], [8])])] [[2], [3], [5]]).2 0
    (by decide)

/-! ### Promoter (`moveRecentReads`) -/

theorem addToGroups_ids : ∀ (gs : List (Nat × List ReadToLocation))
    (r : ReadToLocation) (n : Nat),
    n ∈ (addToGroups gs r).map Prod.fst → n ∈ gs.map Prod.fst ∨ n = r.bucket := by
  intro gs
  induction gs with
  | nil =>
    intro r n h
    simp only [addToGroups, List.map_cons, List.map_nil, List.mem_cons,
      List.not_mem_nil, or_false] at h
    exact Or.inr h
  | cons g rest ih =>
    intro r n h
    obtain ⟨id, ls⟩ := g
    by_cases hid : id = r.bucket
    · rw [addToGroups, if_pos hid] at h
      simp only [List.map_cons, List.mem_cons] at h
      rcases h with rfl | h'
      · exact Or.inl (by simp)
      · exact Or.inl (by simp [h'])
    · rw [addToGroups, if_neg hid] at h
      simp only [List.map_cons, List.mem_cons] at h
      rcases h with rfl | h'
      · exact Or.inl (by simp)
      · rcases ih r n h' with hin | he
        · exact Or.inl (by simp [hin])
        · exact Or.inr he

theorem foldl_addToGroups_ids : ∀ (locs : List ReadToLocation)
    (gs : List (Nat × List ReadToLocation)) (n : Nat),
    n ∈ (locs.foldl addToGroups gs).map Prod.fst →
    n ∈ gs.map Prod.fst ∨ ∃ rl ∈ locs, rl.bucket = n := by
  intro locs
  induction locs with
  | nil => intro gs n h; exact Or.inl h
  | cons r rest ih =>
    intro gs n h
    rw [List.foldl_cons] at h
    rcases ih (addToGroups gs r) n h with hin | hex
    · rcases addToGroups_ids gs r n hin with hin' | he
      · exact Or.inl hin'
      · exact Or.inr ⟨r, List.mem_cons_self _ _, he.symm⟩
    · obtain ⟨rl, hrl, he⟩ := hex
      exact Or.inr ⟨rl, List.mem_cons_of_mem _ hrl, he⟩

/-- Every group identifier of a promotion batch is the source-ring name of
some item of the batch. -/
theorem groupByBucket_ids (locs : List ReadToLocation) (n : Nat)
    (h : n ∈ (groupByBucket locs).map Prod.fst) : ∃ rl ∈ locs, rl.bucket = n := by
  rcases foldl_addToGroups_ids locs [] n h with hin | hex
  · exact absurd hin (by simp)
  · exact hex

/-- When every group's source ring is gone, the per-group loop does
nothing at all: no deletions, and no insertions either. -/
theorem processGroups_skip : ∀ (groups : List (Nat × List ReadToLocation))
    (rings : RingDir) (lastName : Nat),
    (∀ g ∈ groups, getRing rings g.1 = none) →
    processGroups rings lastName groups = .ok (rings, 0, 0) := by
  intro groups
  induction groups with
  | nil => intro rings lastName _; rfl
  | cons g rest ih =>
    intro rings lastName hmiss
    obtain ⟨id, locs⟩ := g
    have hnone : getRing rings id = none := hmiss (id, locs) (List.mem_cons_self _ _)
    have hstep : processGroups rings lastName ((id, locs) :: rest) =
        processGroups rings lastName rest := by
      simp only [processGroups, hnone]
    rw [hstep]
    exact ih rings lastName (fun g hg => hmiss g (List.mem_cons_of_mem _ hg))

/-- C1 (amended): when a group's source ring no longer exists, the Promoter
skips the whole group — neither the deletions nor the insertions into the
newest ring happen.  For a batch all of whose source rings are missing,
`moveRecentReads` commits with the store unchanged. -/
theorem claim_C1_missing_source (rings : RingDir) (locs : List ReadToLocation)
    (lb : Nat × Ring) (hlast : rings.getLast? = some lb)
    (hmiss : ∀ rl ∈ locs, getRing rings rl.bucket = none) :
    moveRecentReads rings locs = .ok rings := by
  have hgroups : ∀ g ∈ groupByBucket locs, getRing rings g.1 = none := by
    intro g hg
    obtain ⟨rl, hrl, he⟩ := groupByBucket_ids locs g.1 (List.mem_map.2 ⟨g, hg, rfl⟩)
    rw [← he]
    exact hmiss rl hrl
  have h1 : moveRecentReads rings locs =
      (match processGroups rings lb.1 (groupByBucket locs) with
       | .err e => .err e
       | .ok (rings', _, _) => .ok rings') := by
    rw [moveRecentReads, hlast]
  rw [h1, processGroups_skip (groupByBucket locs) rings lb.1 hgroups]

theorem claim_C1_witness :
    moveRecentReads [(5, ([] : Ring))] [⟨3, [1], some [9], true⟩] = .ok [(5, [])] :=
  claim_C1_missing_source [(5, [])] [⟨3, [1], some [9], true⟩] (5, [])
    (by decide) (by decide)

/-- C1 counterexample: a promotion batch whose source ring 3 was dropped
(only ring 5, the newest, remains, and it is empty).  `moveRecentReads`
succeeds but inserts nothing: the newest ring stays empty, while the claim
as stated requires the item `([1], [9])` to be inserted into it. -/
theorem claim_C1_counterexample :
    moveRecentReads [(5, ([] : Ring))] [⟨3, [1], some [9], true⟩] = .ok [(5, [])] ∧
      getRing [(5, ([] : Ring))] 5 = some [] ∧
      seekEq ([] : Ring) [1] = none :=
  ⟨by decide, by decide, by decide⟩

/-! ### Promotion queue draining -/

theorem drainLoop_length : ∀ (items : List ReadToLocation) (closed : Bool)
    (acc : List ReadToLocation) (maxBatchSize : Nat),
    acc.length ≤ maxBatchSize →
    (acc.length ≤ (drainLoop items closed acc maxBatchSize).1.length ∧
      (drainLoop items closed acc maxBatchSize).1.length ≤ maxBatchSize) := by
  intro items
  induction items with
  | nil =>
    intro closed acc maxBatchSize hle
    by_cases h : acc.length < maxBatchSize
    · rw [drainLoop, if_pos h]
      exact ⟨Nat.le_refl _, hle⟩
    · rw [drainLoop, if_neg h]
      exact ⟨Nat.le_refl _, hle⟩
  | cons a rest ih =>
    intro closed acc maxBatchSize hle
    by_cases h : acc.length < maxBatchSize
    · rw [drainLoop, if_pos h]
      have hstep : (acc ++ [a]).length ≤ maxBatchSize := by
        rw [List.length_append]
        simpa using h
      obtain ⟨h1, h2⟩ := ih closed (acc ++ [a]) maxBatchSize hstep
      refine ⟨?_, h2⟩
      refine Nat.le_trans ?_ h1
      rw [List.length_append]
      omega
    · rw [drainLoop, if_neg h]
      exact ⟨Nat.le_refl _, hle⟩

/-- C9: for a positive batch cap, every batch `drainAllMovements` hands to
the batch processor has between 1 and `maxBatchSize` items; it returns
`nil` (ending `readMovementLoop`) only when the queue is closed and
drained; and whenever an item is buffered or the queue is closed, the
first blocking receive fires. -/
theorem claim_C9_drain (ch : Chan) (maxBatchSize : Nat)
    (hmax : 1 ≤ maxBatchSize) :
    (∀ items ch', drainAllMovements ch maxBatchSize = .batch items ch' →
      1 ≤ items.length ∧ items.length ≤ maxBatchSize) ∧
    (drainAllMovements ch maxBatchSize = .closedEmpty →
      ch.items = [] ∧ ch.closed = true) ∧
    (ch.items ≠ [] ∨ ch.closed = true → drainAllMovements ch maxBatchSize ≠ .blocked) := by
  obtain ⟨items, closed⟩ := ch
  cases items with
  | nil =>
    cases closed with
    | false =>
      refine ⟨?_, ?_, ?_⟩
      · intro its ch' h
        exact absurd h (by rw [drainAllMovements]; simp)
      · intro h
        exact absurd h (by rw [drainAllMovements]; simp)
      · intro h
        rcases h with h' | h'
        · exact absurd rfl h'
        · exact absurd h' (by simp)
    | true =>
      refine ⟨?_, ?_, ?_⟩
      · intro its ch' h
        exact absurd h (by rw [drainAllMovements]; simp)
      · intro _
        exact ⟨rfl, rfl⟩
      · intro _ hcontr
        rw [drainAllMovements] at hcontr
        simp at hcontr
  | cons rm rest =>
    have hstep : drainAllMovements ⟨rm :: rest, closed⟩ maxBatchSize =
        .batch (drainLoop rest closed [rm] maxBatchSize).1
          (drainLoop rest closed [rm] maxBatchSize).2 := rfl
    refine ⟨?_, ?_, ?_⟩
    · intro its ch' h
      rw [hstep] at h
      injection h with h1 h2
      obtain ⟨hlo, hhi⟩ := drainLoop_length rest closed [rm] maxBatchSize (by simpa)
      rw [← h1]
      exact ⟨hlo, hhi⟩
    · intro h
      rw [hstep] at h
      exact absurd h (by simp)
    · intro _ hcontr
      rw [hstep] at hcontr
      exact DrainResult.noConfusion hcontr

theorem claim_C9_witness :
    1 ≤ ([⟨3, [1], some [9], true⟩] : List ReadToLocation).length ∧
      ([⟨3, [1], some [9], true⟩] : List ReadToLocation).length ≤ 1000 :=
  (claim_C9_drain ⟨[⟨3, [1], some [9], true⟩], false⟩ 1000 (by decide)).1
    [⟨3, [1], some [9], true⟩] ⟨[], false⟩ (by decide)

end BoltCycle
